import Mathlib

/-!
# Threaded matrix transpose (`transpose-threads.c`)

A shallow embedding of the thread-partitioned transpose of `transpose-threads.c`
and the properties of its partitioning and of the resulting destination buffer.

Conventions of the embedding

* `size_t` values are natural numbers; every `size_t` addition, subtraction and
  multiplication of the source is taken modulo `2^64` (`szAdd`, `szSub`, `szMul`).
* The two `restrict` buffers `A` and `B` are two separate lists held in one
  memory state `Mem`; the pointers stored in `struct tr_thread_arg` refer to them.
* A result of `none` stands for undefined behaviour of the C program: an access
  outside a buffer or a division by zero.
* A worker thread is run to completion; the order in which the workers run is a
  parameter (`sched`) of the engines.  In `transpose_threads_row` and
  `transpose_threads_col` the calls of `pthread_create` and `pthread_join` are
  taken to succeed; `transpose_threads_row_sys` and `transpose_threads_col_sys`
  take their return values as parameters and model `exit`.  The value of `errno`
  after the call of `perror` that precedes `exit(errno)` is a parameter too.
* An allocation `assert_malloc(n)` (declared in `util.h`) is taken to return a
  block of exactly `n` bytes, where `n` is the `size_t` product written in the
  source, `num_thr * sizeof(..)` modulo `2^64`; an access to an array element
  beyond that block is undefined behaviour.
* The public functions `transpose_flt_threads_row`, `transpose_dbl_threads_row`,
  `transpose_flt_threads_col` and `transpose_dbl_threads_col` pass their arguments
  to the two engines with the thread body of their element type; the embedding is
  generic in the element type.
-/

namespace TransposeThreads

/-! ## Machine arithmetic -/

/-- Number of values of a `size_t` (64-bit). -/
def SIZE_MOD : Nat := 2 ^ 64

/-- Addition of two `size_t` values. -/
def szAdd (a b : Nat) : Nat := (a + b) % SIZE_MOD

/-- Multiplication of two `size_t` values. -/
def szMul (a b : Nat) : Nat := (a * b) % SIZE_MOD

/-- Subtraction of two `size_t` values (wraps below zero). -/
def szSub (a b : Nat) : Nat := (a + (SIZE_MOD - b % SIZE_MOD)) % SIZE_MOD

/-! ## Memory and loops -/

/-- The source buffer `A` (read-only in the code) and the destination buffer `B`. -/
structure Mem (α : Type) where
  A : List α
  B : List α
deriving DecidableEq

/-- Runs `n` iterations of a loop body for the counter values `i, i+1, ...`. -/
def forLoopFrom {σ : Type} (body : Nat → σ → Option σ) : Nat → Nat → σ → Option σ
  | 0, _, s => some s
  | n + 1, i, s => (body i s).bind (forLoopFrom body n (i + 1))

/-- The C loop `for (i = lo; i < hi; i++) body(i)`: it runs `hi - lo` iterations,
that is no iteration at all when `hi ≤ lo`. -/
def forLoop {σ : Type} (lo hi : Nat) (body : Nat → σ → Option σ) (s : σ) : Option σ :=
  forLoopFrom body (hi - lo) lo s

/-! ## The worker -/

/-- The fields of `struct tr_thread_arg` other than the two buffer pointers. -/
structure tr_thread_arg where
  A_rows : Nat
  A_cols : Nat
  r_min : Nat
  r_max : Nat
  c_min : Nat
  c_max : Nat
  thr_num : Nat
deriving DecidableEq

/-- The function `tt_arg_init`: stores its arguments in the structure. -/
def tt_arg_init (A_rows A_cols r_min r_max c_min c_max thr_num : Nat) : tr_thread_arg :=
  { A_rows := A_rows, A_cols := A_cols, r_min := r_min, r_max := r_max,
    c_min := c_min, c_max := c_max, thr_num := thr_num }

/-- The assignment `(B)[(c) * (A_rows) + (r)] = (A)[(r) * (A_cols) + (c)]`. -/
def blk_assign {α : Type} (A_rows A_cols r c : Nat) (m : Mem α) : Option (Mem α) :=
  match m.A[szAdd (szMul r A_cols) c]? with
  | none => none
  | some v =>
    if szAdd (szMul c A_rows) r < m.B.length then
      some { m with B := m.B.set (szAdd (szMul c A_rows) r) v }
    else none

/-- The macro `TRANSPOSE_BLK`: rows outermost, columns innermost. -/
def TRANSPOSE_BLK {α : Type} (A_rows A_cols r_min c_min r_max c_max : Nat) (m : Mem α) :
    Option (Mem α) :=
  forLoop r_min r_max (fun r => forLoop c_min c_max (fun c => blk_assign A_rows A_cols r c)) m

/-- The thread body `transpose_thread_flt` / `transpose_thread_dbl` (the two differ
only in the element type). -/
def transpose_thread {α : Type} (tt_arg : tr_thread_arg) (m : Mem α) : Option (Mem α) :=
  TRANSPOSE_BLK tt_arg.A_rows tt_arg.A_cols tt_arg.r_min tt_arg.c_min tt_arg.r_max tt_arg.c_max m

/-! ## Partitioning -/

/-- The pair `(r_min, r_max)` computed by `transpose_threads_row` for thread `thr_num`. -/
def row_bounds (A_rows num_thr thr_num : Nat) : Nat × Nat :=
  let num_thr_with_max_rows := A_rows % num_thr
  let min_rows_per_thread := A_rows / num_thr
  let max_rows_per_thread := szAdd min_rows_per_thread 1
  if thr_num < num_thr_with_max_rows then
    let r_min := szMul thr_num max_rows_per_thread
    (r_min, szAdd r_min max_rows_per_thread)
  else
    let r_min := szAdd (szMul num_thr_with_max_rows max_rows_per_thread)
      (szMul (szSub thr_num num_thr_with_max_rows) min_rows_per_thread)
    (r_min, szAdd r_min min_rows_per_thread)

/-- The pair `(c_min, c_max)` computed by `transpose_threads_col` for thread `thr_num`. -/
def col_bounds (A_cols num_thr thr_num : Nat) : Nat × Nat :=
  let num_thr_with_max_cols := A_cols % num_thr
  let min_cols_per_thread := A_cols / num_thr
  let max_cols_per_thread := szAdd min_cols_per_thread 1
  if thr_num < num_thr_with_max_cols then
    let c_min := szMul thr_num max_cols_per_thread
    (c_min, szAdd c_min max_cols_per_thread)
  else
    let c_min := szAdd (szMul num_thr_with_max_cols max_cols_per_thread)
      (szMul (szSub thr_num num_thr_with_max_cols) min_cols_per_thread)
    (c_min, szAdd c_min min_cols_per_thread)

/-- The argument structure that `transpose_threads_row` fills for thread `thr_num`:
its row range over the columns `[0, A_cols)`. -/
def row_arg (A_rows A_cols num_thr thr_num : Nat) : tr_thread_arg :=
  tt_arg_init A_rows A_cols (row_bounds A_rows num_thr thr_num).1
    (row_bounds A_rows num_thr thr_num).2 0 A_cols thr_num

/-- The argument structure that `transpose_threads_col` fills for thread `thr_num`:
its column range over the rows `[0, A_rows)`. -/
def col_arg (A_rows A_cols num_thr thr_num : Nat) : tr_thread_arg :=
  tt_arg_init A_rows A_cols 0 A_rows (col_bounds A_cols num_thr thr_num).1
    (col_bounds A_cols num_thr thr_num).2 thr_num

/-- The array `args` after the creation loop of `transpose_threads_row`. -/
def row_args (A_rows A_cols num_thr : Nat) : List tr_thread_arg :=
  (List.range num_thr).map (row_arg A_rows A_cols num_thr)

/-- The array `args` after the creation loop of `transpose_threads_col`. -/
def col_args (A_rows A_cols num_thr : Nat) : List tr_thread_arg :=
  (List.range num_thr).map (col_arg A_rows A_cols num_thr)

/-! ## The engines -/

/-- Runs the created workers to completion, one after the other, in the order
`sched` (a list of thread numbers).  A number that names no created thread runs
nothing. -/
def run_workers {α : Type} (args : List tr_thread_arg) (sched : List Nat) (m : Mem α) :
    Option (Mem α) :=
  match sched with
  | [] => some m
  | i :: rest =>
    match args[i]? with
    | none => run_workers args rest m
    | some tt_arg => (transpose_thread tt_arg m).bind (run_workers args rest)

/-- The value of `sizeof(pthread_t)` where `size_t` has 64 bits (LP64): 8 bytes. -/
def SIZEOF_PTHREAD_T : Nat := 8

/-- The value of `sizeof(struct tr_thread_arg)` where `size_t` has 64 bits: two
pointers and seven `size_t`, 72 bytes. -/
def SIZEOF_TR_THREAD_ARG : Nat := 72

/-- The number of whole elements of `elem` bytes in the block returned by
`assert_malloc(num * elem)`, the product being a `size_t` product. -/
def alloc_capacity (num elem : Nat) : Nat := szMul num elem / elem

/-- The function `transpose_threads_row` with its workers run in the order `sched`.
For `num_thr = 0` the computation `A_rows % num_thr` divides by zero.  The creation
loop stores `args[thr_num]` and `threads[thr_num]` for every `thr_num < num_thr`;
when one of the two arrays, allocated with `num_thr * sizeof(..)` bytes, holds fewer
than `num_thr` elements, it stores outside the array. -/
def transpose_threads_row {α : Type} (sched : List Nat) (m : Mem α)
    (A_rows A_cols num_thr : Nat) : Option (Mem α) :=
  if num_thr = 0 then none
  else if alloc_capacity num_thr SIZEOF_PTHREAD_T < num_thr ∨
      alloc_capacity num_thr SIZEOF_TR_THREAD_ARG < num_thr then none
  else run_workers (row_args A_rows A_cols num_thr) sched m

/-- The function `transpose_threads_col` with its workers run in the order `sched`.
For `num_thr = 0` the computation `A_cols % num_thr` divides by zero.  The creation
loop stores `args[thr_num]` and `threads[thr_num]` for every `thr_num < num_thr`;
when one of the two arrays, allocated with `num_thr * sizeof(..)` bytes, holds fewer
than `num_thr` elements, it stores outside the array. -/
def transpose_threads_col {α : Type} (sched : List Nat) (m : Mem α)
    (A_rows A_cols num_thr : Nat) : Option (Mem α) :=
  if num_thr = 0 then none
  else if alloc_capacity num_thr SIZEOF_PTHREAD_T < num_thr ∨
      alloc_capacity num_thr SIZEOF_TR_THREAD_ARG < num_thr then none
  else run_workers (col_args A_rows A_cols num_thr) sched m

/-! ## Access trace of the worker -/

/-- The index read from `A` and the index written in `B` by the assignment of the
kernel at the cell `(r, c)`: `(r * A_cols + c, c * A_rows + r)` in `size_t`
arithmetic. -/
def blk_access (A_rows A_cols r c : Nat) : Nat × Nat :=
  (szAdd (szMul r A_cols) c, szAdd (szMul c A_rows) r)

/-- Performs the assignment `B[acc.2] = A[acc.1]`. -/
def do_access {α : Type} (acc : Nat × Nat) (m : Mem α) : Option (Mem α) :=
  match m.A[acc.1]? with
  | none => none
  | some v => if acc.2 < m.B.length then some { m with B := m.B.set acc.2 v } else none

/-- The loops of `TRANSPOSE_BLK` with each assignment replaced by a record of the
pair of indices it touches: the accesses of the kernel in execution order. -/
def TRANSPOSE_BLK_trace (A_rows A_cols r_min c_min r_max c_max : Nat) : List (Nat × Nat) :=
  (forLoop r_min r_max (fun r => forLoop c_min c_max
    (fun c log => some (log ++ [blk_access A_rows A_cols r c]))) []).getD []

/-- The accesses of the thread body for the argument `tt_arg`. -/
def thread_trace (tt_arg : tr_thread_arg) : List (Nat × Nat) :=
  TRANSPOSE_BLK_trace tt_arg.A_rows tt_arg.A_cols tt_arg.r_min tt_arg.c_min
    tt_arg.r_max tt_arg.c_max

/-- The indices of `A` that the thread reads, in execution order. -/
def thread_reads (tt_arg : tr_thread_arg) : List Nat := (thread_trace tt_arg).map Prod.fst

/-- The indices of `B` that the thread writes, in execution order. -/
def thread_writes (tt_arg : tr_thread_arg) : List Nat := (thread_trace tt_arg).map Prod.snd

/-! ## Thread creation and joining with error codes -/

/-- How a call of an engine ends: it returns to the caller with the memory it
leaves, or the process is terminated by `exit(status)`, or the behaviour is
undefined. -/
inductive Outcome (α : Type) where
  | returned (m : Mem α)
  | exited (status : Int)
  | undefined
deriving DecidableEq

/-- A call of an engine: the thread numbers for which `pthread_create` succeeded,
in creation order, and the way the call ends. -/
structure Run (α : Type) where
  launched : List Nat
  outcome : Outcome α
deriving DecidableEq

/-- How a loop of an engine ends: it runs to its end, or it calls `exit(status)`,
or it has undefined behaviour. -/
inductive LoopEnd where
  | completed
  | exited (status : Int)
  | undefined
deriving DecidableEq

/-- The creation loop, `n` iterations from `thr_num` on.  Each iteration stores
`args[thr_num]` (by `tt_arg_init`) and passes `&threads[thr_num]` to
`pthread_create`; the arrays hold `cap_args` and `cap_threads` elements, and an
index beyond them is undefined behaviour.  The value `create_rc k` is what
`pthread_create` returns for thread `k`; a nonzero value is stored in `errno`,
`perror` is called, and `exit(errno)` is called with the value that `errno` has
then, `perror_errno` of the stored value.  The result is the list of launched
threads and the way the loop ends. -/
def create_loop (perror_errno : Int → Int) (create_rc : Nat → Int) (cap_threads cap_args : Nat) :
    Nat → Nat → List Nat → List Nat × LoopEnd
  | 0, _, launched => (launched, LoopEnd.completed)
  | n + 1, thr_num, launched =>
    if cap_args ≤ thr_num then (launched, LoopEnd.undefined)
    else if cap_threads ≤ thr_num then (launched, LoopEnd.undefined)
    else if create_rc thr_num ≠ 0 then
      (launched, LoopEnd.exited (perror_errno (create_rc thr_num)))
    else create_loop perror_errno create_rc cap_threads cap_args n (thr_num + 1)
      (launched ++ [thr_num])

/-- The join loop, `n` iterations from `thr_num` on: `join_rc k` is the value that
`pthread_join` returns for thread `k`; a nonzero value is stored in `errno`,
`perror` is called, and `exit(errno)` is called with the value that `errno` has
then.  The result is the exit status, if any. -/
def join_loop (perror_errno : Int → Int) (join_rc : Nat → Int) : Nat → Nat → Option Int
  | 0, _ => none
  | n + 1, thr_num =>
    if join_rc thr_num ≠ 0 then some (perror_errno (join_rc thr_num))
    else join_loop perror_errno join_rc n (thr_num + 1)

/-- The two loops of an engine on the filled array `args`.  The launched workers run
in the order `sched`; when one of them has undefined behaviour, so has the call.
A failed `pthread_create` ends the call by `exit` with the workers launched so far;
a failed `pthread_join` ends it by `exit`; otherwise every worker has completed and
the call returns. -/
def threads_sys {α : Type} (perror_errno : Int → Int) (create_rc join_rc : Nat → Int)
    (args : List tr_thread_arg) (cap_threads cap_args num_thr : Nat) (sched : List Nat)
    (m : Mem α) : Run α :=
  match create_loop perror_errno create_rc cap_threads cap_args num_thr 0 [] with
  | (launched, LoopEnd.undefined) => ⟨launched, Outcome.undefined⟩
  | (launched, LoopEnd.exited e) =>
    match run_workers args (sched.filter (fun i => decide (i ∈ launched))) m with
    | none => ⟨launched, Outcome.undefined⟩
    | some _ => ⟨launched, Outcome.exited e⟩
  | (launched, LoopEnd.completed) =>
    match run_workers args (sched.filter (fun i => decide (i ∈ launched))) m with
    | none => ⟨launched, Outcome.undefined⟩
    | some m' =>
      match join_loop perror_errno join_rc num_thr 0 with
      | some e => ⟨launched, Outcome.exited e⟩
      | none => ⟨launched, Outcome.returned m'⟩

/-- The function `transpose_threads_row` with the return values of `pthread_create`
and `pthread_join` and the effect of `perror` on `errno` as parameters.  For
`num_thr = 0` the computation `A_rows % num_thr`, which precedes the creation loop,
divides by zero. -/
def transpose_threads_row_sys {α : Type} (perror_errno : Int → Int)
    (create_rc join_rc : Nat → Int) (sched : List Nat)
    (m : Mem α) (A_rows A_cols num_thr : Nat) : Run α :=
  if num_thr = 0 then ⟨[], Outcome.undefined⟩
  else threads_sys perror_errno create_rc join_rc (row_args A_rows A_cols num_thr)
    (alloc_capacity num_thr SIZEOF_PTHREAD_T) (alloc_capacity num_thr SIZEOF_TR_THREAD_ARG)
    num_thr sched m

/-- The function `transpose_threads_col` with the return values of `pthread_create`
and `pthread_join` and the effect of `perror` on `errno` as parameters.  For
`num_thr = 0` the computation `A_cols % num_thr`, which precedes the creation loop,
divides by zero. -/
def transpose_threads_col_sys {α : Type} (perror_errno : Int → Int)
    (create_rc join_rc : Nat → Int) (sched : List Nat)
    (m : Mem α) (A_rows A_cols num_thr : Nat) : Run α :=
  if num_thr = 0 then ⟨[], Outcome.undefined⟩
  else threads_sys perror_errno create_rc join_rc (col_args A_rows A_cols num_thr)
    (alloc_capacity num_thr SIZEOF_PTHREAD_T) (alloc_capacity num_thr SIZEOF_TR_THREAD_ARG)
    num_thr sched m

/-! ## The blocked threaded variants -/

/-- The function `transpose_flt_threads_row_blocked`: its body is `exit(-1)`.  The
result is the memory at the end of the call and the way the call ends. -/
def transpose_flt_threads_row_blocked {α : Type} (m : Mem α)
    (_A_rows _A_cols _num_thr _blk_rows _blk_cols : Nat) : Mem α × Outcome α :=
  (m, Outcome.exited (-1))

/-- The function `transpose_dbl_threads_row_blocked`: its body is `exit(-1)`. -/
def transpose_dbl_threads_row_blocked {α : Type} (m : Mem α)
    (_A_rows _A_cols _num_thr _blk_rows _blk_cols : Nat) : Mem α × Outcome α :=
  (m, Outcome.exited (-1))

/-- The function `transpose_flt_threads_col_blocked`: its body is `exit(-1)`. -/
def transpose_flt_threads_col_blocked {α : Type} (m : Mem α)
    (_A_rows _A_cols _num_thr _blk_rows _blk_cols : Nat) : Mem α × Outcome α :=
  (m, Outcome.exited (-1))

/-- The function `transpose_dbl_threads_col_blocked`: its body is `exit(-1)`. -/
def transpose_dbl_threads_col_blocked {α : Type} (m : Mem α)
    (_A_rows _A_cols _num_thr _blk_rows _blk_cols : Nat) : Mem α × Outcome α :=
  (m, Outcome.exited (-1))

/-! ## The partition formula in unbounded arithmetic -/

/-- The range `[min, max)` of worker `i` by the formula of the creation loops, with
every operation on unbounded natural numbers (`extra = D % N`, `base = D / N`). -/
def bounds_exact (D N i : Nat) : Nat × Nat :=
  if i < D % N then
    (i * (D / N + 1), i * (D / N + 1) + (D / N + 1))
  else
    (D % N * (D / N + 1) + (i - D % N) * (D / N),
      D % N * (D / N + 1) + (i - D % N) * (D / N) + D / N)

/-! ## Exact partition bounds (helper definitions) -/

/-- Start of partition `i` in unbounded arithmetic: `i` whole shares of
`D / N` plus one extra unit for each earlier partition among the first `D % N`. -/
def part_min (D N i : Nat) : Nat := i * (D / N) + min i (D % N)

/-- The value that the transposition stores at index `k` of `B`: the element of
`A` at row `k % A_rows`, column `k / A_rows`. -/
def src_index (A_rows A_cols k : Nat) : Nat := (k % A_rows) * A_cols + k / A_rows

/-- The state `m'` arises from `m` by storing, at every index `k` of `B` selected
by `W`, the element of `A` that the transposition puts there; `A`, the length of
`B` and every other element of `B` are as in `m`. -/
def Wrote {α : Type} (A_rows A_cols : Nat) (W : Nat → Prop) (m m' : Mem α) : Prop :=
  m'.A = m.A ∧ m'.B.length = m.B.length ∧
  ∀ k, (W k → m'.B[k]? = m.A[src_index A_rows A_cols k]?) ∧ (¬ W k → m'.B[k]? = m.B[k]?)

/-- The index `k` of `B` is the destination `c * A_rows + r` of a cell `(r, c)` of
the block `[r_min, r_max) x [c_min, c_max)`. -/
def InBlock (A_rows r_min r_max c_min c_max k : Nat) : Prop :=
  ∃ r c, r_min ≤ r ∧ r < r_max ∧ c_min ≤ c ∧ c < c_max ∧ k = c * A_rows + r

/-- Both buffers hold at least `A_rows * A_cols` elements. -/
def BufOk {α : Type} (A_rows A_cols : Nat) (m : Mem α) : Prop :=
  A_rows * A_cols ≤ m.A.length ∧ A_rows * A_cols ≤ m.B.length

/-! ## Arithmetic of the partitioning -/

theorem szAdd_eq {a b : Nat} (h : a + b < SIZE_MOD) : szAdd a b = a + b :=
  Nat.mod_eq_of_lt h

theorem szMul_eq {a b : Nat} (h : a * b < SIZE_MOD) : szMul a b = a * b :=
  Nat.mod_eq_of_lt h

theorem szSub_eq {a b : Nat} (hb : b ≤ a) (ha : a < SIZE_MOD) : szSub a b = a - b := by
  unfold szSub
  have hb2 : b % SIZE_MOD = b := Nat.mod_eq_of_lt (lt_of_le_of_lt hb ha)
  rw [hb2]
  have : a + (SIZE_MOD - b) = (a - b) + SIZE_MOD := by omega
  rw [this, Nat.add_mod_right]
  exact Nat.mod_eq_of_lt (by omega)

theorem part_min_zero (D N : Nat) : part_min D N 0 = 0 := by
  simp [part_min]

theorem part_min_self (D N : Nat) (hN : 0 < N) : part_min D N N = D := by
  unfold part_min
  rw [min_eq_right (Nat.mod_lt D hN).le]
  exact Nat.div_add_mod D N


theorem part_min_succ (D N i : Nat) :
    part_min D N (i + 1) = part_min D N i + (if i < D % N then D / N + 1 else D / N) := by
  unfold part_min
  split_ifs with h
  · rw [min_eq_left (by omega : i + 1 ≤ D % N), min_eq_left (by omega : i ≤ D % N)]; ring
  · rw [min_eq_right (by omega : D % N ≤ i + 1), min_eq_right (by omega : D % N ≤ i)]; ring

theorem part_min_mono (D N : Nat) {i j : Nat} (h : i ≤ j) : part_min D N i ≤ part_min D N j := by
  unfold part_min
  have h1 : i * (D / N) ≤ j * (D / N) := Nat.mul_le_mul_right _ h
  have h2 : min i (D % N) ≤ min j (D % N) := min_le_min_right _ h
  omega

theorem part_min_le (D N i : Nat) (hN : 0 < N) (hi : i ≤ N) : part_min D N i ≤ D := by
  calc part_min D N i ≤ part_min D N N := part_min_mono D N hi
    _ = D := part_min_self D N hN

/-- The wrapping computation of `transpose_threads_row` yields the exact bounds. -/
theorem row_bounds_eq (D N i : Nat) (hD : D < SIZE_MOD) (hN : N < SIZE_MOD) (hi : i < N) :
    row_bounds D N i = (part_min D N i, part_min D N (i + 1)) := by
  have hN0 : 0 < N := by omega
  have hle : part_min D N (i + 1) ≤ D := part_min_le D N (i + 1) hN0 hi
  have hsucc := part_min_succ D N i
  have hdm : N * (D / N) + D % N = D := Nat.div_add_mod D N
  have hel : D % N < N := Nat.mod_lt D hN0
  have hmin1 : i < D % N → part_min D N i = i * (D / N + 1) := by
    intro h; unfold part_min; rw [min_eq_left h.le]; ring
  have hmin2 : ¬ i < D % N → part_min D N i = D % N * (D / N + 1) + (i - D % N) * (D / N) := by
    intro h; unfold part_min; rw [min_eq_right (by omega : D % N ≤ i)]
    have : i * (D / N) = (D % N) * (D / N) + (i - D % N) * (D / N) := by
      rw [← Nat.add_mul]; congr 1; omega
    rw [this]; ring
  unfold row_bounds
  simp only
  generalize D / N = b at *
  generalize D % N = e at *
  split_ifs with h
  · rw [if_pos h] at hsucc
    have hmin := hmin1 h
    have hb : 1 * (b + 1) ≤ (i + 1) * (b + 1) := Nat.mul_le_mul_right _ (by omega)
    have hb2 : (i + 1) * (b + 1) = i * (b + 1) + (b + 1) := by ring
    have h1 : szAdd b 1 = b + 1 := szAdd_eq (by omega)
    rw [h1]
    have h2 : szMul i (b + 1) = i * (b + 1) := szMul_eq (by omega)
    rw [h2, szAdd_eq (by omega), ← hmin, hsucc]
  · rw [if_neg h] at hsucc
    have hmin := hmin2 h
    have h1 : szMul e (szAdd b 1) = e * (b + 1) := by
      by_cases he : e = 0
      · simp [he, szMul]
      · have hpos : 1 ≤ e := Nat.one_le_iff_ne_zero.mpr he
        have hb : 1 * (b + 1) ≤ e * (b + 1) := Nat.mul_le_mul_right _ hpos
        rw [szAdd_eq (by omega), szMul_eq (by omega)]
    have h2 : szSub i e = i - e := szSub_eq (by omega) (by omega)
    rw [h1, h2]
    have h3 : szMul (i - e) b = (i - e) * b := szMul_eq (by omega)
    rw [h3, szAdd_eq (by omega), ← hmin, szAdd_eq (by omega), hsucc]

theorem col_bounds_eq_row_bounds (D N i : Nat) : col_bounds D N i = row_bounds D N i := rfl

theorem col_bounds_eq (D N i : Nat) (hD : D < SIZE_MOD) (hN : N < SIZE_MOD) (hi : i < N) :
    col_bounds D N i = (part_min D N i, part_min D N (i + 1)) :=
  row_bounds_eq D N i hD hN hi

/-! ## The worker kernel -/

theorem Wrote.refl {α : Type} (R C : Nat) (m : Mem α) : Wrote R C (fun _ => False) m m :=
  ⟨rfl, rfl, fun _ => ⟨fun h => h.elim, fun _ => rfl⟩⟩

theorem Wrote.congr {α : Type} {R C : Nat} {W W' : Nat → Prop} {m m' : Mem α}
    (h : Wrote R C W m m') (hW : ∀ k, W k ↔ W' k) : Wrote R C W' m m' :=
  ⟨h.1, h.2.1, fun k => ⟨fun hk => (h.2.2 k).1 ((hW k).2 hk),
    fun hk => (h.2.2 k).2 (fun hw => hk ((hW k).1 hw))⟩⟩

theorem Wrote.trans {α : Type} {R C : Nat} {W₁ W₂ : Nat → Prop} {m m₁ m₂ : Mem α}
    (h₁ : Wrote R C W₁ m m₁) (h₂ : Wrote R C W₂ m₁ m₂) :
    Wrote R C (fun k => W₁ k ∨ W₂ k) m m₂ := by
  refine ⟨h₂.1.trans h₁.1, h₂.2.1.trans h₁.2.1, fun k => ⟨?_, ?_⟩⟩
  · intro hk
    by_cases h2 : W₂ k
    · rw [(h₂.2.2 k).1 h2, h₁.1]
    · rw [(h₂.2.2 k).2 h2]
      exact (h₁.2.2 k).1 (hk.resolve_right h2)
  · intro hk
    rw [(h₂.2.2 k).2 (fun h => hk (Or.inr h))]
    exact (h₁.2.2 k).2 (fun h => hk (Or.inl h))

theorem Wrote.bufOk {α : Type} {R C : Nat} {W : Nat → Prop} {m m' : Mem α}
    (h : Wrote R C W m m') (hm : BufOk R C m) : BufOk R C m' := by
  unfold BufOk at *
  rw [h.1, h.2.1]
  exact hm

/-- Two states that both arise from `m` by writing the same index set are equal. -/
theorem Wrote.unique {α : Type} {R C : Nat} {W : Nat → Prop} {m m₁ m₂ : Mem α}
    (h₁ : Wrote R C W m m₁) (h₂ : Wrote R C W m m₂) : m₁ = m₂ := by
  have hA : m₁.A = m₂.A := h₁.1.trans h₂.1.symm
  have hB : m₁.B = m₂.B := by
    apply List.ext_getElem?
    intro k
    by_cases hk : W k
    · rw [(h₁.2.2 k).1 hk, (h₂.2.2 k).1 hk]
    · rw [(h₁.2.2 k).2 hk, (h₂.2.2 k).2 hk]
  cases m₁; cases m₂
  simp only at hA hB
  rw [hA, hB]

theorem cell_lt {R C r c : Nat} (hr : r < R) (hc : c < C) : c * R + r < R * C := by
  have h : (c + 1) * R ≤ C * R := Nat.mul_le_mul_right R hc
  have h2 : (c + 1) * R = c * R + R := by ring
  have h3 : C * R = R * C := Nat.mul_comm C R
  omega

theorem src_index_cell {R C r c : Nat} (hr : r < R) :
    src_index R C (c * R + r) = r * C + c := by
  unfold src_index
  have h1 : (c * R + r) % R = r := by
    rw [Nat.add_comm, Nat.add_mul_mod_self_right]; exact Nat.mod_eq_of_lt hr
  have h2 : (c * R + r) / R = c := by
    rw [Nat.add_comm, Nat.add_mul_div_right _ _ (by omega : 0 < R), Nat.div_eq_of_lt hr]
    omega
  rw [h1, h2]

/-- One assignment of the kernel is defined and writes exactly its destination. -/
theorem blk_assign_spec {α : Type} {R C r c : Nat} (m : Mem α) (hRC : R * C < SIZE_MOD)
    (hm : BufOk R C m) (hr : r < R) (hc : c < C) :
    ∃ m', blk_assign R C r c m = some m' ∧ Wrote R C (fun k => k = c * R + r) m m' := by
  have hsrc : r * C + c < R * C := by
    have := @cell_lt C R c r hc hr
    rw [Nat.mul_comm C R] at this
    exact this
  have hdst : c * R + r < R * C := cell_lt hr hc
  have e1 : szAdd (szMul r C) c = r * C + c := by
    rw [szMul_eq (by omega), szAdd_eq (by omega)]
  have e2 : szAdd (szMul c R) r = c * R + r := by
    rw [szMul_eq (by omega), szAdd_eq (by omega)]
  have hA : r * C + c < m.A.length := lt_of_lt_of_le hsrc hm.1
  have hB : c * R + r < m.B.length := lt_of_lt_of_le hdst hm.2
  unfold blk_assign
  rw [e1, e2, List.getElem?_eq_getElem hA]
  simp only [hB, if_true]
  refine ⟨_, rfl, rfl, by simp, fun k => ⟨?_, ?_⟩⟩
  · intro hk
    subst hk
    simp only
    rw [List.getElem?_set, if_pos rfl, if_pos hB, src_index_cell hr, List.getElem?_eq_getElem hA]
  · intro hk
    simp only
    rw [List.getElem?_set, if_neg (fun h => hk h.symm)]

/-- A counted loop whose body is defined on well-sized states and writes the index
set `Wb i` in iteration `i` is defined and writes the union of these sets. -/
theorem forLoopFrom_spec {α : Type} {R C : Nat} (body : Nat → Mem α → Option (Mem α))
    (Wb : Nat → Nat → Prop) (n : Nat) :
    ∀ (lo : Nat) (m : Mem α), BufOk R C m →
      (∀ i, lo ≤ i → i < lo + n → ∀ s, BufOk R C s →
        ∃ s', body i s = some s' ∧ Wrote R C (Wb i) s s') →
      ∃ m', forLoopFrom body n lo m = some m' ∧
        Wrote R C (fun k => ∃ i, lo ≤ i ∧ i < lo + n ∧ Wb i k) m m' := by
  induction n with
  | zero =>
    intro lo m _ _
    refine ⟨m, rfl, (Wrote.refl R C m).congr ?_⟩
    intro k
    constructor
    · intro h; exact h.elim
    · rintro ⟨i, h1, h2, _⟩; omega
  | succ n ih =>
    intro lo m hm hbody
    obtain ⟨m₁, e₁, w₁⟩ := hbody lo (le_refl _) (by omega) m hm
    obtain ⟨m₂, e₂, w₂⟩ := ih (lo + 1) m₁ (w₁.bufOk hm)
      (fun i h1 h2 s hs => hbody i (by omega) (by omega) s hs)
    refine ⟨m₂, ?_, (w₁.trans w₂).congr ?_⟩
    · simp only [forLoopFrom, e₁, Option.bind]
      exact e₂
    · intro k
      constructor
      · rintro (h | ⟨i, h1, h2, h3⟩)
        · exact ⟨lo, le_refl _, by omega, h⟩
        · exact ⟨i, by omega, by omega, h3⟩
      · rintro ⟨i, h1, h2, h3⟩
        by_cases hi : i = lo
        · subst hi; exact Or.inl h3
        · exact Or.inr ⟨i, by omega, by omega, h3⟩

theorem forLoop_spec {α : Type} {R C : Nat} (body : Nat → Mem α → Option (Mem α))
    (Wb : Nat → Nat → Prop) (lo hi : Nat) (m : Mem α) (hm : BufOk R C m)
    (hbody : ∀ i, lo ≤ i → i < hi → ∀ s, BufOk R C s →
      ∃ s', body i s = some s' ∧ Wrote R C (Wb i) s s') :
    ∃ m', forLoop lo hi body m = some m' ∧
      Wrote R C (fun k => ∃ i, lo ≤ i ∧ i < hi ∧ Wb i k) m m' := by
  obtain ⟨m', e, w⟩ := forLoopFrom_spec body Wb (hi - lo) lo m hm
    (fun i h1 h2 s hs => hbody i h1 (by omega) s hs)
  refine ⟨m', e, w.congr ?_⟩
  intro k
  constructor
  · rintro ⟨i, h1, h2, h3⟩; exact ⟨i, h1, by omega, h3⟩
  · rintro ⟨i, h1, h2, h3⟩; exact ⟨i, h1, by omega, h3⟩

/-- The kernel on a block inside the matrix is defined and writes exactly the
destinations of the cells of the block. -/
theorem TRANSPOSE_BLK_spec {α : Type} {R C : Nat} (r_min c_min r_max c_max : Nat) (m : Mem α)
    (hRC : R * C < SIZE_MOD) (hm : BufOk R C m) (hr : r_max ≤ R) (hc : c_max ≤ C) :
    ∃ m', TRANSPOSE_BLK R C r_min c_min r_max c_max m = some m' ∧
      Wrote R C (InBlock R r_min r_max c_min c_max) m m' := by
  unfold TRANSPOSE_BLK
  obtain ⟨m', e, w⟩ := forLoop_spec
    (fun r => forLoop c_min c_max (fun c => blk_assign R C r c))
    (fun r k => ∃ c, c_min ≤ c ∧ c < c_max ∧ k = c * R + r) r_min r_max m hm
    (fun r _ h2 s hs => forLoop_spec (fun c => blk_assign R C r c)
      (fun c k => k = c * R + r) c_min c_max s hs
      (fun c _ h4 t ht => blk_assign_spec t hRC ht (by omega) (by omega)))
  refine ⟨m', e, w.congr ?_⟩
  intro k
  constructor
  · rintro ⟨r, h1, h2, c, h3, h4, h5⟩; exact ⟨r, c, h1, h2, h3, h4, h5⟩
  · rintro ⟨r, c, h1, h2, h3, h4, h5⟩; exact ⟨r, h1, h2, c, h3, h4, h5⟩

/-! ## Coverage of the partitions and the engines -/

/-- Every unit below `D` lies in the partition of some worker. -/
theorem part_cover (D N : Nat) (hN : 0 < N) {x : Nat} (hx : x < D) :
    ∃ i, i < N ∧ part_min D N i ≤ x ∧ x < part_min D N (i + 1) := by
  have key : ∀ n, x < part_min D N n →
      ∃ i, i < n ∧ part_min D N i ≤ x ∧ x < part_min D N (i + 1) := by
    intro n
    induction n with
    | zero => intro h; rw [part_min_zero] at h; omega
    | succ n ih =>
      intro h
      by_cases hn : x < part_min D N n
      · obtain ⟨i, h1, h2, h3⟩ := ih hn
        exact ⟨i, by omega, h2, h3⟩
      · exact ⟨n, by omega, by omega, h⟩
  exact key N (by rw [part_min_self D N hN]; exact hx)

theorem index_decomp {R C k : Nat} (hk : k < R * C) :
    k % R < R ∧ k / R < C ∧ k = k / R * R + k % R := by
  have hR : 0 < R := by
    rcases Nat.eq_zero_or_pos R with h | h
    · subst h; simp at hk
    · exact h
  refine ⟨Nat.mod_lt k hR, ?_, (Nat.div_add_mod' k R).symm⟩
  rw [Nat.div_lt_iff_lt_mul hR, Nat.mul_comm]
  exact hk

/-- Running workers whose blocks lie inside the matrix is defined and writes the
union of the blocks of the workers named by the schedule. -/
theorem run_workers_spec {α : Type} {R C : Nat} (args : List tr_thread_arg)
    (hRC : R * C < SIZE_MOD)
    (hargs : ∀ (i : Nat) (a : tr_thread_arg), args[i]? = some a →
      a.A_rows = R ∧ a.A_cols = C ∧ a.r_max ≤ R ∧ a.c_max ≤ C)
    (sched : List Nat) :
    ∀ (m : Mem α), BufOk R C m →
      ∃ m', run_workers args sched m = some m' ∧
        Wrote R C (fun k => ∃ i, i ∈ sched ∧ ∃ a, args[i]? = some a ∧
          InBlock R a.r_min a.r_max a.c_min a.c_max k) m m' := by
  induction sched with
  | nil =>
    intro m _
    refine ⟨m, rfl, (Wrote.refl R C m).congr ?_⟩
    intro k
    constructor
    · intro h; exact h.elim
    · rintro ⟨i, h1, _⟩; simp at h1
  | cons j rest ih =>
    intro m hm
    cases hj : args[j]? with
    | none =>
      obtain ⟨m', e, w⟩ := ih m hm
      refine ⟨m', ?_, w.congr ?_⟩
      · simp only [run_workers, hj]; exact e
      · intro k
        constructor
        · rintro ⟨i, h1, h2⟩; exact ⟨i, List.mem_cons_of_mem _ h1, h2⟩
        · rintro ⟨i, h1, a, h2, h3⟩
          rcases List.mem_cons.mp h1 with h | h
          · subst h; rw [hj] at h2; cases h2
          · exact ⟨i, h, a, h2, h3⟩
    | some a =>
      obtain ⟨hR, hC, hr, hc⟩ := hargs j a hj
      obtain ⟨m₁, e₁, w₁⟩ := TRANSPOSE_BLK_spec a.r_min a.c_min a.r_max a.c_max m hRC hm hr hc
      obtain ⟨m₂, e₂, w₂⟩ := ih m₁ (w₁.bufOk hm)
      refine ⟨m₂, ?_, (w₁.trans w₂).congr ?_⟩
      · simp only [run_workers, hj, transpose_thread, hR, hC, e₁, Option.bind]
        exact e₂
      · intro k
        constructor
        · rintro (h | ⟨i, h1, h2⟩)
          · exact ⟨j, List.mem_cons_self _ _, a, hj, h⟩
          · exact ⟨i, List.mem_cons_of_mem _ h1, h2⟩
        · rintro ⟨i, h1, b, h2, h3⟩
          rcases List.mem_cons.mp h1 with h | h
          · subst h; rw [hj] at h2; cases h2; exact Or.inl h3
          · exact Or.inr ⟨i, h, b, h2, h3⟩

theorem row_args_get (R C T i : Nat) :
    (row_args R C T)[i]? = if i < T then some (row_arg R C T i) else none := by
  unfold row_args
  rw [List.getElem?_map]
  split_ifs with h
  · rw [List.getElem?_range h]; rfl
  · rw [List.getElem?_eq_none (by simpa using h)]; rfl

theorem col_args_get (R C T i : Nat) :
    (col_args R C T)[i]? = if i < T then some (col_arg R C T i) else none := by
  unfold col_args
  rw [List.getElem?_map]
  split_ifs with h
  · rw [List.getElem?_range h]; rfl
  · rw [List.getElem?_eq_none (by simpa using h)]; rfl

/-- A thread count whose argument array has a representable size is a `size_t`. -/
theorem lt_of_cap {T : Nat} (hcap : T * SIZEOF_TR_THREAD_ARG < SIZE_MOD) : T < SIZE_MOD := by
  unfold SIZEOF_TR_THREAD_ARG at hcap
  omega

/-- When the size of the argument array does not wrap, both arrays hold `T`
elements. -/
theorem alloc_capacity_eq {T : Nat} (hcap : T * SIZEOF_TR_THREAD_ARG < SIZE_MOD) :
    alloc_capacity T SIZEOF_PTHREAD_T = T ∧ alloc_capacity T SIZEOF_TR_THREAD_ARG = T := by
  unfold SIZEOF_TR_THREAD_ARG at hcap
  unfold alloc_capacity SIZEOF_PTHREAD_T SIZEOF_TR_THREAD_ARG
  rw [szMul_eq (by omega), szMul_eq (by omega)]
  exact ⟨Nat.mul_div_cancel T (by decide), Nat.mul_div_cancel T (by decide)⟩

/-- When the size of the argument array does not wrap, no creation loop stores
outside an array. -/
theorem not_alloc_short {T : Nat} (hcap : T * SIZEOF_TR_THREAD_ARG < SIZE_MOD) :
    ¬ (alloc_capacity T SIZEOF_PTHREAD_T < T ∨ alloc_capacity T SIZEOF_TR_THREAD_ARG < T) := by
  rw [(alloc_capacity_eq hcap).1, (alloc_capacity_eq hcap).2]
  omega

/-- The row engine, with every created worker in the schedule, is defined and
writes every index below `R * C`. -/
theorem transpose_threads_row_spec {α : Type} {R C T : Nat} (sched : List Nat) (m : Mem α)
    (hR : R < SIZE_MOD) (hRC : R * C < SIZE_MOD) (hT : 0 < T) (hT2 : T < SIZE_MOD)
    (hcap : T * SIZEOF_TR_THREAD_ARG < SIZE_MOD)
    (hm : BufOk R C m) (hs : ∀ i, i < T → i ∈ sched) :
    ∃ m', transpose_threads_row sched m R C T = some m' ∧
      Wrote R C (fun k => k < R * C) m m' := by
  have hargs : ∀ (i : Nat) (a : tr_thread_arg), (row_args R C T)[i]? = some a →
      a.A_rows = R ∧ a.A_cols = C ∧ a.r_max ≤ R ∧ a.c_max ≤ C := by
    intro i a h
    rw [row_args_get] at h
    split_ifs at h with hi
    cases h
    refine ⟨rfl, rfl, ?_, le_refl _⟩
    simp only [row_arg, tt_arg_init, row_bounds_eq R T i hR hT2 hi]
    exact part_min_le R T (i + 1) hT hi
  obtain ⟨m', e, w⟩ := run_workers_spec (row_args R C T) hRC hargs sched m hm
  refine ⟨m', ?_, w.congr ?_⟩
  · simp only [transpose_threads_row, if_neg (by omega : ¬ T = 0), if_neg (not_alloc_short hcap)]
    exact e
  · intro k
    constructor
    · rintro ⟨i, _, a, h2, r, c, _, h4, _, h6, h7⟩
      obtain ⟨_, hC, hr, hc⟩ := hargs i a h2
      rw [h7]
      exact cell_lt (by omega) (by omega)
    · intro hk
      obtain ⟨h1, h2, h3⟩ := index_decomp hk
      obtain ⟨i, hi, hlo, hhi⟩ := part_cover R T hT h1
      refine ⟨i, hs i hi, row_arg R C T i, by rw [row_args_get, if_pos hi], ?_⟩
      simp only [row_arg, tt_arg_init, row_bounds_eq R T i hR hT2 hi]
      exact ⟨k % R, k / R, hlo, hhi, Nat.zero_le _, h2, h3⟩

/-- The column engine, with every created worker in the schedule, is defined and
writes every index below `R * C`. -/
theorem transpose_threads_col_spec {α : Type} {R C T : Nat} (sched : List Nat) (m : Mem α)
    (hC : C < SIZE_MOD) (hRC : R * C < SIZE_MOD) (hT : 0 < T) (hT2 : T < SIZE_MOD)
    (hcap : T * SIZEOF_TR_THREAD_ARG < SIZE_MOD)
    (hm : BufOk R C m) (hs : ∀ i, i < T → i ∈ sched) :
    ∃ m', transpose_threads_col sched m R C T = some m' ∧
      Wrote R C (fun k => k < R * C) m m' := by
  have hargs : ∀ (i : Nat) (a : tr_thread_arg), (col_args R C T)[i]? = some a →
      a.A_rows = R ∧ a.A_cols = C ∧ a.r_max ≤ R ∧ a.c_max ≤ C := by
    intro i a h
    rw [col_args_get] at h
    split_ifs at h with hi
    cases h
    refine ⟨rfl, rfl, le_refl _, ?_⟩
    simp only [col_arg, tt_arg_init, col_bounds_eq C T i hC hT2 hi]
    exact part_min_le C T (i + 1) hT hi
  obtain ⟨m', e, w⟩ := run_workers_spec (col_args R C T) hRC hargs sched m hm
  refine ⟨m', ?_, w.congr ?_⟩
  · simp only [transpose_threads_col, if_neg (by omega : ¬ T = 0), if_neg (not_alloc_short hcap)]
    exact e
  · intro k
    constructor
    · rintro ⟨i, _, a, h2, r, c, _, h4, _, h6, h7⟩
      obtain ⟨_, hC, hr, hc⟩ := hargs i a h2
      rw [h7]
      exact cell_lt (by omega) (by omega)
    · intro hk
      obtain ⟨h1, h2, h3⟩ := index_decomp hk
      obtain ⟨i, hi, hlo, hhi⟩ := part_cover C T hT h2
      refine ⟨i, hs i hi, col_arg R C T i, by rw [col_args_get, if_pos hi], ?_⟩
      simp only [col_arg, tt_arg_init, col_bounds_eq C T i hC hT2 hi]
      exact ⟨k % R, k / R, Nat.zero_le _, h1, hlo, hhi, h3⟩

/-- A schedule that is a permutation of the thread numbers names every worker. -/
theorem sched_covers {T : Nat} {sched : List Nat} (h : sched.Perm (List.range T)) :
    ∀ i, i < T → i ∈ sched :=
  fun _ hi => h.mem_iff.mpr (List.mem_range.mpr hi)

/-- Reading the transposed element out of a state with every index written. -/
theorem Wrote.get_cell {α : Type} {R C r c : Nat} {m m' : Mem α}
    (w : Wrote R C (fun k => k < R * C) m m') (hr : r < R) (hc : c < C) :
    m'.B[c * R + r]? = m.A[r * C + c]? := by
  rw [(w.2.2 (c * R + r)).1 (cell_lt hr hc), src_index_cell hr]

/-- A loop whose body changes nothing changes nothing. -/
theorem forLoopFrom_id {σ : Type} (body : Nat → σ → Option σ) (n : Nat)
    (hbody : ∀ i s, body i s = some s) : ∀ (lo : Nat) (s : σ), forLoopFrom body n lo s = some s := by
  induction n with
  | zero => intro lo s; rfl
  | succ n ih =>
    intro lo s
    simp only [forLoopFrom, hbody, Option.bind]
    exact ih (lo + 1) s

/-- The kernel on a block without rows or without columns executes no assignment. -/
theorem TRANSPOSE_BLK_empty {α : Type} (R C r_min c_min r_max c_max : Nat) (m : Mem α)
    (h : r_max ≤ r_min ∨ c_max ≤ c_min) :
    TRANSPOSE_BLK R C r_min c_min r_max c_max m = some m := by
  unfold TRANSPOSE_BLK forLoop
  rcases h with h | h
  · rw [Nat.sub_eq_zero_of_le h]; rfl
  · apply forLoopFrom_id
    intro r s
    rw [Nat.sub_eq_zero_of_le h]; rfl

theorem part_min_of_lt (D N i : Nat) (h : D < N) : part_min D N i = min i D := by
  unfold part_min
  rw [Nat.div_eq_of_lt h, Nat.mod_eq_of_lt h]
  simp

theorem Wrote.get_index {α : Type} {R C k : Nat} {m m' : Mem α}
    (w : Wrote R C (fun k => k < R * C) m m') (hk : k < R * C) :
    m'.B[k]? = m.A[k % R * C + k / R]? := by
  rw [(w.2.2 k).1 hk]; rfl

theorem Wrote.get_rest {α : Type} {R C k : Nat} {m m' : Mem α}
    (w : Wrote R C (fun k => k < R * C) m m') (hk : R * C ≤ k) :
    m'.B[k]? = m.B[k]? :=
  (w.2.2 k).2 (by omega)

/-- With one thread and its worker scheduled, an engine is one run of the kernel. -/
theorem run_workers_single {α : Type} (a : tr_thread_arg) (m : Mem α) :
    run_workers [a] [0] m = transpose_thread a m := by
  simp only [run_workers, List.getElem?_cons_zero]
  cases transpose_thread a m <;> rfl

/-! ## Evaluation on small inputs -/

/-- The row engine on a 2 x 3 matrix with two threads, second worker first. -/
theorem transpose_threads_row_eval :
    transpose_threads_row [1, 0] ⟨[10, 11, 12, 13, 14, 15], [0, 0, 0, 0, 0, 0]⟩ 2 3 2 =
      some ⟨[10, 11, 12, 13, 14, 15], [10, 13, 11, 14, 12, 15]⟩ := by
  decide

/-- The column engine on a 2 x 3 matrix with two threads. -/
theorem transpose_threads_col_eval :
    transpose_threads_col [0, 1] ⟨[10, 11, 12, 13, 14, 15], [0, 0, 0, 0, 0, 0]⟩ 2 3 2 =
      some ⟨[10, 11, 12, 13, 14, 15], [10, 13, 11, 14, 12, 15]⟩ := by
  decide

/-- A worker alone writes only its block: the second of two row workers. -/
theorem transpose_thread_eval :
    transpose_thread (row_arg 2 3 2 1) ⟨[10, 11, 12, 13, 14, 15], [0, 0, 0, 0, 0, 0]⟩ =
      some ⟨[10, 11, 12, 13, 14, 15], [0, 13, 0, 14, 0, 15]⟩ := by
  decide

/-- A destination that is too short makes the kernel undefined. -/
theorem transpose_thread_short_eval :
    transpose_thread (row_arg 2 3 1 0) ⟨[10, 11, 12, 13, 14, 15], [0, 0, 0, 0, 0]⟩ = none := by
  decide

/-- The bounds for ten units over four threads: sizes 3, 3, 2, 2. -/
theorem row_bounds_eval :
    (List.range 4).map (row_bounds 10 4) = [(0, 3), (3, 6), (6, 8), (8, 10)] := by
  decide

/-- The one place where `min_rows_per_thread + 1` wraps: the largest dimension and
one thread; the bounds are not affected. -/
theorem row_bounds_wrap_eval :
    szAdd (18446744073709551615 / 1) 1 = 0 ∧
    row_bounds 18446744073709551615 1 0 = (0, 18446744073709551615) := by
  decide

/-! ## Correctness of the parallel transpose -/

/-- C1, amended: for matrix sizes `R`, `C` with a representable product, a thread
count `T ≥ 1` whose array size `T * sizeof(struct tr_thread_arg)` is representable,
a source `A` and a destination `B` of `R * C` elements each, and the workers run to
completion in any order, both `transpose_threads_row` and `transpose_threads_col`
return, and in the resulting destination `B[c * R + r] = A[r * C + c]` for every
cell `(r, c)` of the matrix. -/
theorem transpose_threads_correct {α : Type} (A B : List α) (R C T : Nat) (sched : List Nat)
    (hR : R < SIZE_MOD) (hC : C < SIZE_MOD) (hRC : R * C < SIZE_MOD)
    (hT : 1 ≤ T) (hcap : T * SIZEOF_TR_THREAD_ARG < SIZE_MOD)
    (hA : A.length = R * C) (hB : B.length = R * C) (hs : sched.Perm (List.range T)) :
    (∃ m', transpose_threads_row sched ⟨A, B⟩ R C T = some m' ∧ m'.B.length = R * C ∧
      ∀ r c, r < R → c < C → m'.B[c * R + r]? = A[r * C + c]?) ∧
    (∃ m', transpose_threads_col sched ⟨A, B⟩ R C T = some m' ∧ m'.B.length = R * C ∧
      ∀ r c, r < R → c < C → m'.B[c * R + r]? = A[r * C + c]?) := by
  have hT2 : T < SIZE_MOD := lt_of_cap hcap
  have hm : BufOk R C (⟨A, B⟩ : Mem α) := ⟨hA.ge, hB.ge⟩
  obtain ⟨m₁, e₁, w₁⟩ := transpose_threads_row_spec sched ⟨A, B⟩ hR hRC hT hT2 hcap hm (sched_covers hs)
  obtain ⟨m₂, e₂, w₂⟩ := transpose_threads_col_spec sched ⟨A, B⟩ hC hRC hT hT2 hcap hm (sched_covers hs)
  exact ⟨⟨m₁, e₁, w₁.2.1.trans hB, fun r c hr hc => w₁.get_cell hr hc⟩,
    ⟨m₂, e₂, w₂.2.1.trans hB, fun r c hr hc => w₂.get_cell hr hc⟩⟩

/-- The case of the test program: an 8 x 16 matrix and two threads, here with the
second worker run first. -/
theorem transpose_threads_correct_witness :
    (∃ m', transpose_threads_row [1, 0] ⟨List.range 128, List.replicate 128 0⟩ 8 16 2 = some m' ∧
      m'.B.length = 8 * 16 ∧
      ∀ r c, r < 8 → c < 16 → m'.B[c * 8 + r]? = (List.range 128)[r * 16 + c]?) ∧
    (∃ m', transpose_threads_col [1, 0] ⟨List.range 128, List.replicate 128 0⟩ 8 16 2 = some m' ∧
      m'.B.length = 8 * 16 ∧
      ∀ r c, r < 8 → c < 16 → m'.B[c * 8 + r]? = (List.range 128)[r * 16 + c]?) :=
  transpose_threads_correct (List.range 128) (List.replicate 128 0) 8 16 2 [1, 0]
    (by decide) (by decide) (by decide) (by decide) (by decide) (by simp) (by simp) (by decide)

/-- C1, as stated, fails for `2^61` threads: `num_thr * sizeof(..)` wraps to 0 for
both arrays, the first iteration of the creation loop stores `args[0]` outside the
array, and neither engine returns the transpose of a 1 x 1 matrix. -/
theorem transpose_threads_correct_counterexample :
    (¬ ∃ m', transpose_threads_row (List.range 2305843009213693952) ⟨[5], [0]⟩ 1 1 2305843009213693952 = some m') ∧
    (¬ ∃ m', transpose_threads_col (List.range 2305843009213693952) ⟨[5], [0]⟩ 1 1 2305843009213693952 = some m') := by
  have e₁ : transpose_threads_row (List.range 2305843009213693952) ⟨[5], [0]⟩ 1 1 2305843009213693952 = none := by decide
  have e₂ : transpose_threads_col (List.range 2305843009213693952) ⟨[5], [0]⟩ 1 1 2305843009213693952 = none := by decide
  constructor
  · rintro ⟨m', h⟩
    rw [e₁] at h
    cases h
  · rintro ⟨m', h⟩
    rw [e₂] at h
    cases h

/-! ## The partitioning -/

/-- C2: for a dimension `D` and `N ≥ 1` workers, the ranges `[min_i, max_i)` that the
creation loop of `transpose_threads_row` (and equally of `transpose_threads_col`)
computes start at 0, are contiguous (`max_i = min_{i+1}`), end at `D`, have
`min_i ≤ max_i`, are pairwise disjoint, and their union is exactly `[0, D)`. -/
theorem partition_coverage (D N : Nat) (f : Nat → Nat × Nat)
    (hD : D < SIZE_MOD) (hN : 1 ≤ N) (hN2 : N < SIZE_MOD)
    (hf : f = row_bounds D N ∨ f = col_bounds D N) :
    (f 0).1 = 0 ∧
    (∀ i, i + 1 < N → (f i).2 = (f (i + 1)).1) ∧
    (f (N - 1)).2 = D ∧
    (∀ i, i < N → (f i).1 ≤ (f i).2) ∧
    (∀ i j, i < N → j < N → i ≠ j →
      ∀ x, ¬ ((f i).1 ≤ x ∧ x < (f i).2 ∧ (f j).1 ≤ x ∧ x < (f j).2)) ∧
    (∀ x, x < D ↔ ∃ i, i < N ∧ (f i).1 ≤ x ∧ x < (f i).2) := by
  have hfi : ∀ i, i < N → f i = (part_min D N i, part_min D N (i + 1)) := by
    intro i hi
    rcases hf with h | h <;> rw [h]
    · exact row_bounds_eq D N i hD hN2 hi
    · exact col_bounds_eq D N i hD hN2 hi
  refine ⟨?_, ?_, ?_, ?_, ?_, ?_⟩
  · rw [hfi 0 (by omega)]; exact part_min_zero D N
  · intro i hi
    rw [hfi i (by omega), hfi (i + 1) hi]
  · rw [hfi (N - 1) (by omega)]
    have : N - 1 + 1 = N := by omega
    simp only [this]
    exact part_min_self D N (by omega)
  · intro i hi
    rw [hfi i hi]
    exact part_min_mono D N (Nat.le_succ i)
  · intro i j hi hj hij x
    rw [hfi i hi, hfi j hj]
    simp only
    rintro ⟨h1, h2, h3, h4⟩
    rcases Nat.lt_or_gt_of_ne hij with h | h
    · have : part_min D N (i + 1) ≤ part_min D N j := part_min_mono D N h
      omega
    · have : part_min D N (j + 1) ≤ part_min D N i := part_min_mono D N h
      omega
  · intro x
    constructor
    · intro hx
      obtain ⟨i, hi, h1, h2⟩ := part_cover D N (by omega) hx
      exact ⟨i, hi, by rw [hfi i hi]; exact h1, by rw [hfi i hi]; exact h2⟩
    · rintro ⟨i, hi, _, h2⟩
      rw [hfi i hi] at h2
      exact lt_of_lt_of_le h2 (part_min_le D N (i + 1) (by omega) hi)

/-- Ten rows over four threads, as the row engine divides them. -/
theorem partition_coverage_witness :
    (row_bounds 10 4 0).1 = 0 ∧
    (∀ i, i + 1 < 4 → (row_bounds 10 4 i).2 = (row_bounds 10 4 (i + 1)).1) ∧
    (row_bounds 10 4 (4 - 1)).2 = 10 ∧
    (∀ i, i < 4 → (row_bounds 10 4 i).1 ≤ (row_bounds 10 4 i).2) ∧
    (∀ i j, i < 4 → j < 4 → i ≠ j →
      ∀ x, ¬ ((row_bounds 10 4 i).1 ≤ x ∧ x < (row_bounds 10 4 i).2 ∧
        (row_bounds 10 4 j).1 ≤ x ∧ x < (row_bounds 10 4 j).2)) ∧
    (∀ x, x < 10 ↔ ∃ i, i < 4 ∧ (row_bounds 10 4 i).1 ≤ x ∧ x < (row_bounds 10 4 i).2) :=
  partition_coverage 10 4 (row_bounds 10 4) (by decide) (by decide) (by decide) (Or.inl rfl)

/-- C3: for a dimension `D` and `N ≥ 1` workers, the sizes `max_i - min_i` of any two
partitions of either engine differ by at most 1 (each range has `min_i ≤ max_i`),
and the sequence of `min_i` is non-decreasing in `i`. -/
theorem partition_balance (D N : Nat) (f : Nat → Nat × Nat)
    (hD : D < SIZE_MOD) (_hN : 1 ≤ N) (hN2 : N < SIZE_MOD)
    (hf : f = row_bounds D N ∨ f = col_bounds D N) :
    (∀ i, i < N → (f i).1 ≤ (f i).2) ∧
    (∀ i j, i < N → j < N → (f i).2 - (f i).1 ≤ (f j).2 - (f j).1 + 1) ∧
    (∀ i j, i ≤ j → j < N → (f i).1 ≤ (f j).1) := by
  have hfi : ∀ i, i < N → f i = (part_min D N i, part_min D N (i + 1)) := by
    intro i hi
    rcases hf with h | h <;> rw [h]
    · exact row_bounds_eq D N i hD hN2 hi
    · exact col_bounds_eq D N i hD hN2 hi
  refine ⟨?_, ?_, ?_⟩
  · intro i hi
    rw [hfi i hi]
    exact part_min_mono D N (Nat.le_succ i)
  · intro i j hi hj
    rw [hfi i hi, hfi j hj]
    simp only
    have h1 := part_min_succ D N i
    have h2 := part_min_succ D N j
    split_ifs at h1 h2 <;> omega
  · intro i j hij hj
    rw [hfi i (by omega), hfi j hj]
    exact part_min_mono D N hij

/-- Ten columns over four threads, as the column engine divides them. -/
theorem partition_balance_witness :
    (∀ i, i < 4 → (col_bounds 10 4 i).1 ≤ (col_bounds 10 4 i).2) ∧
    (∀ i j, i < 4 → j < 4 →
      (col_bounds 10 4 i).2 - (col_bounds 10 4 i).1 ≤
        (col_bounds 10 4 j).2 - (col_bounds 10 4 j).1 + 1) ∧
    (∀ i j, i ≤ j → j < 4 → (col_bounds 10 4 i).1 ≤ (col_bounds 10 4 j).1) :=
  partition_balance 10 4 (col_bounds 10 4) (by decide) (by decide) (by decide) (Or.inr rfl)

/-- C4: for a dimension `D` and `N ≥ 1` workers, with `base = D / N` and
`extra = D % N`, partition `i < N` of either engine has size `base + 1` when
`i < extra` and size `base` otherwise, its `min` is the sum of the sizes of the
partitions before it, and that is `i * (base + 1)` for `i < extra` and
`extra * (base + 1) + (i - extra) * base` otherwise. -/
theorem partition_layout (D N : Nat) (f : Nat → Nat × Nat)
    (hD : D < SIZE_MOD) (_hN : 1 ≤ N) (hN2 : N < SIZE_MOD)
    (hf : f = row_bounds D N ∨ f = col_bounds D N) :
    ∀ i, i < N →
      (f i).2 = (f i).1 + (if i < D % N then D / N + 1 else D / N) ∧
      (f i).1 = ∑ j in Finset.range i, ((f j).2 - (f j).1) ∧
      (f i).1 = (if i < D % N then i * (D / N + 1)
        else D % N * (D / N + 1) + (i - D % N) * (D / N)) := by
  have hfi : ∀ i, i < N → f i = (part_min D N i, part_min D N (i + 1)) := by
    intro i hi
    rcases hf with h | h <;> rw [h]
    · exact row_bounds_eq D N i hD hN2 hi
    · exact col_bounds_eq D N i hD hN2 hi
  have hsum : ∀ i, i ≤ N → part_min D N i = ∑ j in Finset.range i, ((f j).2 - (f j).1) := by
    intro i
    induction i with
    | zero => intro _; simp [part_min_zero]
    | succ i ih =>
      intro hi
      have h1 := ih (by omega)
      have h3 : part_min D N i ≤ part_min D N (i + 1) := part_min_mono D N (Nat.le_succ i)
      rw [Finset.sum_range_succ, hfi i (by omega)]
      simp only
      omega
  intro i hi
  rw [hfi i hi]
  refine ⟨part_min_succ D N i, hsum i hi.le, ?_⟩
  simp only
  unfold part_min
  split_ifs with h
  · rw [min_eq_left h.le]; ring
  · rw [min_eq_right (by omega : D % N ≤ i)]
    have : i * (D / N) = (D % N) * (D / N) + (i - D % N) * (D / N) := by
      rw [← Nat.add_mul]; congr 1; omega
    rw [this]; ring

/-- Eleven rows over four threads (sizes 3, 3, 3, 2), at the last worker. -/
theorem partition_layout_witness :
    (row_bounds 11 4 3).2 = (row_bounds 11 4 3).1 + (if 3 < 11 % 4 then 11 / 4 + 1 else 11 / 4) ∧
    (row_bounds 11 4 3).1 =
      ∑ j in Finset.range 3, ((row_bounds 11 4 j).2 - (row_bounds 11 4 j).1) ∧
    (row_bounds 11 4 3).1 = (if 3 < 11 % 4 then 3 * (11 / 4 + 1)
      else 11 % 4 * (11 / 4 + 1) + (3 - 11 % 4) * (11 / 4)) :=
  partition_layout 11 4 (row_bounds 11 4) (by decide) (by decide) (by decide) (Or.inl rfl)
    3 (by decide)

/-! ## Independence of the axis and of the thread count -/

/-- C5, amended: for a source `A` and an initial destination `B0` of `R * C` elements
each and a thread count `T ≥ 1` whose array size `T * sizeof(struct tr_thread_arg)`
is representable, the row-partitioned engine and the column-partitioned
engine both return, with the same final state, hence the same destination
element for element (whatever the orders in which their workers run). -/
theorem axis_equivalence {α : Type} (A B0 : List α) (R C T : Nat) (s₁ s₂ : List Nat)
    (hR : R < SIZE_MOD) (hC : C < SIZE_MOD) (hRC : R * C < SIZE_MOD)
    (hT : 1 ≤ T) (hcap : T * SIZEOF_TR_THREAD_ARG < SIZE_MOD)
    (hA : A.length = R * C) (hB : B0.length = R * C)
    (hs₁ : s₁.Perm (List.range T)) (hs₂ : s₂.Perm (List.range T)) :
    ∃ m', transpose_threads_row s₁ ⟨A, B0⟩ R C T = some m' ∧
      transpose_threads_col s₂ ⟨A, B0⟩ R C T = some m' := by
  have hT2 : T < SIZE_MOD := lt_of_cap hcap
  have hm : BufOk R C (⟨A, B0⟩ : Mem α) := ⟨hA.ge, hB.ge⟩
  obtain ⟨m₁, e₁, w₁⟩ := transpose_threads_row_spec s₁ ⟨A, B0⟩ hR hRC hT hT2 hcap hm (sched_covers hs₁)
  obtain ⟨m₂, e₂, w₂⟩ := transpose_threads_col_spec s₂ ⟨A, B0⟩ hC hRC hT hT2 hcap hm (sched_covers hs₂)
  exact ⟨m₁, e₁, by rw [e₂, w₂.unique w₁]⟩

/-- A 2 x 3 matrix and two threads, the row workers run in creation order and the
column workers in the opposite order. -/
theorem axis_equivalence_witness :
    ∃ m', transpose_threads_row [0, 1] ⟨[10, 11, 12, 13, 14, 15], [0, 0, 0, 0, 0, 0]⟩ 2 3 2
        = some m' ∧
      transpose_threads_col [1, 0] ⟨[10, 11, 12, 13, 14, 15], [0, 0, 0, 0, 0, 0]⟩ 2 3 2
        = some m' :=
  axis_equivalence [10, 11, 12, 13, 14, 15] [0, 0, 0, 0, 0, 0] 2 3 2 [0, 1] [1, 0]
    (by decide) (by decide) (by decide) (by decide) (by decide) (by decide) (by decide)
    (by decide) (by decide)

/-- C5, as stated, fails for `2^61` threads on a 2 x 3 matrix: `num_thr * sizeof(..)`
wraps to 0 for both arrays and the creation loops store `args[0]` outside the
array, so the two engines do not produce a common destination. -/
theorem axis_equivalence_counterexample :
    ¬ ∃ m', transpose_threads_row (List.range 2305843009213693952)
        ⟨[10, 11, 12, 13, 14, 15], [0, 0, 0, 0, 0, 0]⟩ 2 3 2305843009213693952 = some m' ∧
      transpose_threads_col (List.range 2305843009213693952)
        ⟨[10, 11, 12, 13, 14, 15], [0, 0, 0, 0, 0, 0]⟩ 2 3 2305843009213693952 = some m' := by
  have e : transpose_threads_row (List.range 2305843009213693952)
      ⟨[10, 11, 12, 13, 14, 15], [0, 0, 0, 0, 0, 0]⟩ 2 3 2305843009213693952 = none := by decide
  rintro ⟨m', h, _⟩
  rw [e] at h
  cases h

/-- C6, amended: for a source `A` and an initial destination `B` of `R * C` elements
each and any two thread counts `T₁, T₂ ≥ 1` (below, equal to or above the
partitioned dimension) whose array sizes `T * sizeof(struct tr_thread_arg)` are
representable, the row engine run with `T₁` threads and run with `T₂` threads returns
the same final state, and so does the column engine. -/
theorem thread_count_invariance {α : Type} (A B : List α) (R C T₁ T₂ : Nat) (s₁ s₂ : List Nat)
    (hR : R < SIZE_MOD) (hC : C < SIZE_MOD) (hRC : R * C < SIZE_MOD)
    (hT₁ : 1 ≤ T₁) (hcap₁ : T₁ * SIZEOF_TR_THREAD_ARG < SIZE_MOD)
    (hT₂ : 1 ≤ T₂) (hcap₂ : T₂ * SIZEOF_TR_THREAD_ARG < SIZE_MOD)
    (hA : A.length = R * C) (hB : B.length = R * C)
    (hs₁ : s₁.Perm (List.range T₁)) (hs₂ : s₂.Perm (List.range T₂)) :
    (∃ m', transpose_threads_row s₁ ⟨A, B⟩ R C T₁ = some m' ∧
      transpose_threads_row s₂ ⟨A, B⟩ R C T₂ = some m') ∧
    (∃ m', transpose_threads_col s₁ ⟨A, B⟩ R C T₁ = some m' ∧
      transpose_threads_col s₂ ⟨A, B⟩ R C T₂ = some m') := by
  have hT₁' : T₁ < SIZE_MOD := lt_of_cap hcap₁
  have hT₂' : T₂ < SIZE_MOD := lt_of_cap hcap₂
  have hm : BufOk R C (⟨A, B⟩ : Mem α) := ⟨hA.ge, hB.ge⟩
  obtain ⟨m₁, e₁, w₁⟩ :=
    transpose_threads_row_spec s₁ ⟨A, B⟩ hR hRC hT₁ hT₁' hcap₁ hm (sched_covers hs₁)
  obtain ⟨m₂, e₂, w₂⟩ :=
    transpose_threads_row_spec s₂ ⟨A, B⟩ hR hRC hT₂ hT₂' hcap₂ hm (sched_covers hs₂)
  obtain ⟨m₃, e₃, w₃⟩ :=
    transpose_threads_col_spec s₁ ⟨A, B⟩ hC hRC hT₁ hT₁' hcap₁ hm (sched_covers hs₁)
  obtain ⟨m₄, e₄, w₄⟩ :=
    transpose_threads_col_spec s₂ ⟨A, B⟩ hC hRC hT₂ hT₂' hcap₂ hm (sched_covers hs₂)
  exact ⟨⟨m₁, e₁, by rw [e₂, w₂.unique w₁]⟩, ⟨m₃, e₃, by rw [e₄, w₄.unique w₃]⟩⟩

/-- A 2 x 3 matrix with one thread and with four threads (more than rows or
columns). -/
theorem thread_count_invariance_witness :
    (∃ m', transpose_threads_row [0] ⟨[10, 11, 12, 13, 14, 15], [0, 0, 0, 0, 0, 0]⟩ 2 3 1
        = some m' ∧
      transpose_threads_row [3, 1, 0, 2] ⟨[10, 11, 12, 13, 14, 15], [0, 0, 0, 0, 0, 0]⟩ 2 3 4
        = some m') ∧
    (∃ m', transpose_threads_col [0] ⟨[10, 11, 12, 13, 14, 15], [0, 0, 0, 0, 0, 0]⟩ 2 3 1
        = some m' ∧
      transpose_threads_col [3, 1, 0, 2] ⟨[10, 11, 12, 13, 14, 15], [0, 0, 0, 0, 0, 0]⟩ 2 3 4
        = some m') :=
  thread_count_invariance [10, 11, 12, 13, 14, 15] [0, 0, 0, 0, 0, 0] 2 3 1 4 [0] [3, 1, 0, 2]
    (by decide) (by decide) (by decide) (by decide) (by decide) (by decide) (by decide)
    (by decide) (by decide) (by decide) (by decide)

/-- C6, as stated, fails for the thread counts 1 and `2^61` on a 2 x 3 matrix: with
one thread the row engine returns the transpose, with `2^61` threads
`num_thr * sizeof(..)` wraps to 0 and the creation loop stores `args[0]` outside
the array. -/
theorem thread_count_invariance_counterexample :
    transpose_threads_row [0] ⟨[10, 11, 12, 13, 14, 15], [0, 0, 0, 0, 0, 0]⟩ 2 3 1 =
      some ⟨[10, 11, 12, 13, 14, 15], [10, 13, 11, 14, 12, 15]⟩ ∧
    transpose_threads_row (List.range 2305843009213693952)
      ⟨[10, 11, 12, 13, 14, 15], [0, 0, 0, 0, 0, 0]⟩ 2 3 2305843009213693952 = none := by
  decide

/-! ## The example of the specification and the degenerate cases -/

/-- C7: for `R = 8`, `C = 16`, `T = 3` the row engine creates exactly three workers,
with the row ranges `[0,3)`, `[3,6)`, `[6,8)`, each over the columns `[0,16)`; and
for a source with `A[r * 16 + c] = r * 16 + c` and a destination of 128 elements
the engine returns a destination with `B[c * 8 + r] = r * 16 + c` for all
`r < 8`, `c < 16`. -/
theorem spec_example (A B : List Nat) (sched : List Nat)
    (hA : ∀ r c, r < 8 → c < 16 → A[r * 16 + c]? = some (r * 16 + c))
    (hB : B.length = 128) (hs : sched.Perm (List.range 3)) :
    row_args 8 16 3 = [tt_arg_init 8 16 0 3 0 16 0, tt_arg_init 8 16 3 6 0 16 1,
      tt_arg_init 8 16 6 8 0 16 2] ∧
    ∃ m', transpose_threads_row sched ⟨A, B⟩ 8 16 3 = some m' ∧
      ∀ r c, r < 8 → c < 16 → m'.B[c * 8 + r]? = some (r * 16 + c) := by
  refine ⟨by decide, ?_⟩
  have hlen : 8 * 16 ≤ A.length := by
    have h := hA 7 15 (by omega) (by omega)
    by_contra hcon
    rw [List.getElem?_eq_none (by omega)] at h
    cases h
  have hm : BufOk 8 16 (⟨A, B⟩ : Mem Nat) := ⟨hlen, by rw [hB]⟩
  obtain ⟨m', e, w⟩ := transpose_threads_row_spec sched ⟨A, B⟩ (by decide) (by decide)
    (by decide) (by decide) (by decide) hm (sched_covers hs)
  exact ⟨m', e, fun r c hr hc => by rw [w.get_cell hr hc]; exact hA r c hr hc⟩

/-- The example with the source `0, 1, ..., 127`, a zeroed destination and the
workers run in the order 2, 0, 1. -/
theorem spec_example_witness :
    row_args 8 16 3 = [tt_arg_init 8 16 0 3 0 16 0, tt_arg_init 8 16 3 6 0 16 1,
      tt_arg_init 8 16 6 8 0 16 2] ∧
    ∃ m', transpose_threads_row [2, 0, 1] ⟨List.range 128, List.replicate 128 0⟩ 8 16 3
        = some m' ∧
      ∀ r c, r < 8 → c < 16 → m'.B[c * 8 + r]? = some (r * 16 + c) :=
  spec_example (List.range 128) (List.replicate 128 0) [2, 0, 1]
    (fun r c hr hc => List.getElem?_range (by omega)) (by simp) (by decide)

/-- C8, amended: with more threads than units of the partitioned dimension (`T > R` for the
row engine, `T > C` for the column engine), worker `i` below the dimension gets the
range `[i, i+1)` and every later worker the empty range at the dimension; a worker
with an empty range returns every state unchanged, so it writes no element of `B`;
and, when the array size `T * sizeof(struct tr_thread_arg)` is representable, the
engine still returns the full transpose. -/
theorem more_workers_than_units {α : Type} (A B : List α) (R C T : Nat) (sched : List Nat)
    (hR : R < SIZE_MOD) (hC : C < SIZE_MOD) (hRC : R * C < SIZE_MOD) (hT2 : T < SIZE_MOD)
    (hA : A.length = R * C) (hB : B.length = R * C) (hs : sched.Perm (List.range T)) :
    (R < T →
      (∀ i, i < R → row_bounds R T i = (i, i + 1)) ∧
      (∀ i, R ≤ i → i < T → row_bounds R T i = (R, R) ∧
        ∀ m : Mem α, transpose_thread (row_arg R C T i) m = some m) ∧
      (T * SIZEOF_TR_THREAD_ARG < SIZE_MOD →
        ∃ m', transpose_threads_row sched ⟨A, B⟩ R C T = some m' ∧
          ∀ r c, r < R → c < C → m'.B[c * R + r]? = A[r * C + c]?)) ∧
    (C < T →
      (∀ i, i < C → col_bounds C T i = (i, i + 1)) ∧
      (∀ i, C ≤ i → i < T → col_bounds C T i = (C, C) ∧
        ∀ m : Mem α, transpose_thread (col_arg R C T i) m = some m) ∧
      (T * SIZEOF_TR_THREAD_ARG < SIZE_MOD →
        ∃ m', transpose_threads_col sched ⟨A, B⟩ R C T = some m' ∧
          ∀ r c, r < R → c < C → m'.B[c * R + r]? = A[r * C + c]?)) := by
  have hm : BufOk R C (⟨A, B⟩ : Mem α) := ⟨hA.ge, hB.ge⟩
  constructor
  · intro h
    have hlate : ∀ i, R ≤ i → i < T → row_bounds R T i = (R, R) := by
      intro i h1 h2
      rw [row_bounds_eq R T i hR hT2 h2, part_min_of_lt R T i h, part_min_of_lt R T (i + 1) h,
        min_eq_right h1, min_eq_right (by omega : R ≤ i + 1)]
    refine ⟨?_, ?_, ?_⟩
    · intro i hi
      rw [row_bounds_eq R T i hR hT2 (by omega), part_min_of_lt R T i h,
        part_min_of_lt R T (i + 1) h, min_eq_left hi.le, min_eq_left (by omega : i + 1 ≤ R)]
    · intro i h1 h2
      refine ⟨hlate i h1 h2, fun m => ?_⟩
      simp only [transpose_thread, row_arg, tt_arg_init, hlate i h1 h2]
      exact TRANSPOSE_BLK_empty R C R 0 R C m (Or.inl (le_refl R))
    · intro hcap
      obtain ⟨m', e, w⟩ :=
        transpose_threads_row_spec sched ⟨A, B⟩ hR hRC (by omega) hT2 hcap hm (sched_covers hs)
      exact ⟨m', e, fun r c hr hc => w.get_cell hr hc⟩
  · intro h
    have hlate : ∀ i, C ≤ i → i < T → col_bounds C T i = (C, C) := by
      intro i h1 h2
      rw [col_bounds_eq C T i hC hT2 h2, part_min_of_lt C T i h, part_min_of_lt C T (i + 1) h,
        min_eq_right h1, min_eq_right (by omega : C ≤ i + 1)]
    refine ⟨?_, ?_, ?_⟩
    · intro i hi
      rw [col_bounds_eq C T i hC hT2 (by omega), part_min_of_lt C T i h,
        part_min_of_lt C T (i + 1) h, min_eq_left hi.le, min_eq_left (by omega : i + 1 ≤ C)]
    · intro i h1 h2
      refine ⟨hlate i h1 h2, fun m => ?_⟩
      simp only [transpose_thread, col_arg, tt_arg_init, hlate i h1 h2]
      exact TRANSPOSE_BLK_empty R C 0 C R C m (Or.inr (le_refl C))
    · intro hcap
      obtain ⟨m', e, w⟩ :=
        transpose_threads_col_spec sched ⟨A, B⟩ hC hRC (by omega) hT2 hcap hm (sched_covers hs)
      exact ⟨m', e, fun r c hr hc => w.get_cell hr hc⟩

/-- A 2 x 3 matrix and five threads: more threads than rows and than columns. -/
theorem more_workers_than_units_witness :
    ((∀ i, i < 2 → row_bounds 2 5 i = (i, i + 1)) ∧
      (∀ i, 2 ≤ i → i < 5 → row_bounds 2 5 i = (2, 2) ∧
        ∀ m : Mem Nat, transpose_thread (row_arg 2 3 5 i) m = some m) ∧
      ∃ m', transpose_threads_row [4, 3, 2, 1, 0]
          ⟨[10, 11, 12, 13, 14, 15], [0, 0, 0, 0, 0, 0]⟩ 2 3 5 = some m' ∧
        ∀ r c, r < 2 → c < 3 → m'.B[c * 2 + r]? = [10, 11, 12, 13, 14, 15][r * 3 + c]?) ∧
    ((∀ i, i < 3 → col_bounds 3 5 i = (i, i + 1)) ∧
      (∀ i, 3 ≤ i → i < 5 → col_bounds 3 5 i = (3, 3) ∧
        ∀ m : Mem Nat, transpose_thread (col_arg 2 3 5 i) m = some m) ∧
      ∃ m', transpose_threads_col [4, 3, 2, 1, 0]
          ⟨[10, 11, 12, 13, 14, 15], [0, 0, 0, 0, 0, 0]⟩ 2 3 5 = some m' ∧
        ∀ r c, r < 2 → c < 3 → m'.B[c * 2 + r]? = [10, 11, 12, 13, 14, 15][r * 3 + c]?) :=
  (fun h => ⟨⟨(h.1 (by decide)).1, (h.1 (by decide)).2.1, (h.1 (by decide)).2.2 (by decide)⟩,
      ⟨(h.2 (by decide)).1, (h.2 (by decide)).2.1, (h.2 (by decide)).2.2 (by decide)⟩⟩)
    (more_workers_than_units [10, 11, 12, 13, 14, 15] [0, 0, 0, 0, 0, 0] 2 3 5 [4, 3, 2, 1, 0]
      (by decide) (by decide) (by decide) (by decide) (by decide) (by decide) (by decide))

/-- C8, as stated, fails for `2^61` threads on a 2 x 3 matrix: there are more
threads than rows and than columns, `num_thr * sizeof(..)` wraps to 0 for both
arrays, the creation loop stores `args[0]` outside the array, and the engines do
not return the transpose. -/
theorem more_workers_than_units_counterexample :
    2 < 2305843009213693952 ∧ 3 < 2305843009213693952 ∧
    transpose_threads_row (List.range 2305843009213693952)
      ⟨[10, 11, 12, 13, 14, 15], [0, 0, 0, 0, 0, 0]⟩ 2 3 2305843009213693952 = none ∧
    transpose_threads_col (List.range 2305843009213693952)
      ⟨[10, 11, 12, 13, 14, 15], [0, 0, 0, 0, 0, 0]⟩ 2 3 2305843009213693952 = none := by
  decide

/-- C9: with one thread the partitioning yields the single range `[0, D)` of the
dimension; the row engine and the column engine then create one worker each, with
the block of rows `[0, A_rows)` and columns `[0, A_cols)`, and the engine is one
run of the kernel on that block. -/
theorem single_worker {α : Type} (R C : Nat) (m : Mem α)
    (hR : R < SIZE_MOD) (hC : C < SIZE_MOD) :
    row_bounds R 1 0 = (0, R) ∧ col_bounds C 1 0 = (0, C) ∧
    row_args R C 1 = [tt_arg_init R C 0 R 0 C 0] ∧
    col_args R C 1 = [tt_arg_init R C 0 R 0 C 0] ∧
    transpose_threads_row [0] m R C 1 = TRANSPOSE_BLK R C 0 0 R C m ∧
    transpose_threads_col [0] m R C 1 = TRANSPOSE_BLK R C 0 0 R C m := by
  have hr : row_bounds R 1 0 = (0, R) := by
    rw [row_bounds_eq R 1 0 hR (by decide) (by omega), part_min_zero]
    exact congrArg _ (part_min_self R 1 (by omega))
  have hc : col_bounds C 1 0 = (0, C) := by
    rw [col_bounds_eq C 1 0 hC (by decide) (by omega), part_min_zero]
    exact congrArg _ (part_min_self C 1 (by omega))
  have hra : row_args R C 1 = [tt_arg_init R C 0 R 0 C 0] := by
    simp [row_args, row_arg, hr, List.range_succ]
  have hca : col_args R C 1 = [tt_arg_init R C 0 R 0 C 0] := by
    simp [col_args, col_arg, hc, List.range_succ]
  refine ⟨hr, hc, hra, hca, ?_, ?_⟩
  · simp only [transpose_threads_row, if_neg (by omega : ¬ 1 = 0), hra, run_workers_single]
    rfl
  · simp only [transpose_threads_col, if_neg (by omega : ¬ 1 = 0), hca, run_workers_single]
    rfl

/-- One thread on a 2 x 3 matrix. -/
theorem single_worker_witness :
    row_bounds 2 1 0 = (0, 2) ∧ col_bounds 3 1 0 = (0, 3) ∧
    row_args 2 3 1 = [tt_arg_init 2 3 0 2 0 3 0] ∧
    col_args 2 3 1 = [tt_arg_init 2 3 0 2 0 3 0] ∧
    transpose_threads_row [0] ⟨[10, 11, 12, 13, 14, 15], [0, 0, 0, 0, 0, 0]⟩ 2 3 1 =
      TRANSPOSE_BLK 2 3 0 0 2 3 ⟨[10, 11, 12, 13, 14, 15], [0, 0, 0, 0, 0, 0]⟩ ∧
    transpose_threads_col [0] ⟨[10, 11, 12, 13, 14, 15], [0, 0, 0, 0, 0, 0]⟩ 2 3 1 =
      TRANSPOSE_BLK 2 3 0 0 2 3 ⟨[10, 11, 12, 13, 14, 15], [0, 0, 0, 0, 0, 0]⟩ :=
  single_worker 2 3 ⟨[10, 11, 12, 13, 14, 15], [0, 0, 0, 0, 0, 0]⟩ (by decide) (by decide)

/-! ## Frame of the engines -/

/-- C10, amended: for a source `A` of at least `R * C` elements, a thread count
`T ≥ 1` whose array size `T * sizeof(struct tr_thread_arg)` is representable, and
destinations `B`, `B₂` of any lengths that are at least `R * C`, each engine
returns; it leaves `A` as it was, keeps the length of `B` and every element of `B`
at an index `≥ R * C`, stores at every index `k < R * C` the element of `A` at row
`k % R`, column `k / R`, and so the first `R * C` elements of the result are the
same when the engine is started on `B₂` instead of `B`. -/
theorem engine_frame {α : Type} (A B B₂ : List α) (R C T : Nat) (sched : List Nat)
    (hR : R < SIZE_MOD) (hC : C < SIZE_MOD) (hRC : R * C < SIZE_MOD)
    (hT : 1 ≤ T) (hcap : T * SIZEOF_TR_THREAD_ARG < SIZE_MOD)
    (hA : R * C ≤ A.length) (hB : R * C ≤ B.length) (hB₂ : R * C ≤ B₂.length)
    (hs : sched.Perm (List.range T)) :
    (∃ m' m₂, transpose_threads_row sched ⟨A, B⟩ R C T = some m' ∧
      transpose_threads_row sched ⟨A, B₂⟩ R C T = some m₂ ∧
      m'.A = A ∧ m'.B.length = B.length ∧
      (∀ k, R * C ≤ k → m'.B[k]? = B[k]?) ∧
      (∀ k, k < R * C → m'.B[k]? = A[k % R * C + k / R]?) ∧
      m'.B.take (R * C) = m₂.B.take (R * C)) ∧
    (∃ m' m₂, transpose_threads_col sched ⟨A, B⟩ R C T = some m' ∧
      transpose_threads_col sched ⟨A, B₂⟩ R C T = some m₂ ∧
      m'.A = A ∧ m'.B.length = B.length ∧
      (∀ k, R * C ≤ k → m'.B[k]? = B[k]?) ∧
      (∀ k, k < R * C → m'.B[k]? = A[k % R * C + k / R]?) ∧
      m'.B.take (R * C) = m₂.B.take (R * C)) := by
  have hT2 : T < SIZE_MOD := lt_of_cap hcap
  have hm : BufOk R C (⟨A, B⟩ : Mem α) := ⟨hA, hB⟩
  have hm₂ : BufOk R C (⟨A, B₂⟩ : Mem α) := ⟨hA, hB₂⟩
  have htake : ∀ m' m₂ : Mem α, Wrote R C (fun k => k < R * C) ⟨A, B⟩ m' →
      Wrote R C (fun k => k < R * C) ⟨A, B₂⟩ m₂ → m'.B.take (R * C) = m₂.B.take (R * C) := by
    intro m' m₂ w w₂
    apply List.ext_getElem?
    intro k
    rw [List.getElem?_take, List.getElem?_take]
    split_ifs with hk
    · rw [w.get_index hk, w₂.get_index hk]
    · rfl
  constructor
  · obtain ⟨m', e, w⟩ :=
      transpose_threads_row_spec sched ⟨A, B⟩ hR hRC hT hT2 hcap hm (sched_covers hs)
    obtain ⟨m₂, e₂, w₂⟩ :=
      transpose_threads_row_spec sched ⟨A, B₂⟩ hR hRC hT hT2 hcap hm₂ (sched_covers hs)
    exact ⟨m', m₂, e, e₂, w.1, w.2.1, fun k hk => w.get_rest hk,
      fun k hk => w.get_index hk, htake m' m₂ w w₂⟩
  · obtain ⟨m', e, w⟩ :=
      transpose_threads_col_spec sched ⟨A, B⟩ hC hRC hT hT2 hcap hm (sched_covers hs)
    obtain ⟨m₂, e₂, w₂⟩ :=
      transpose_threads_col_spec sched ⟨A, B₂⟩ hC hRC hT hT2 hcap hm₂ (sched_covers hs)
    exact ⟨m', m₂, e, e₂, w.1, w.2.1, fun k hk => w.get_rest hk,
      fun k hk => w.get_index hk, htake m' m₂ w w₂⟩

/-- A 2 x 3 matrix, two threads, and two destinations of eight and seven elements. -/
theorem engine_frame_witness :
    (∃ m' m₂, transpose_threads_row [0, 1]
        ⟨[10, 11, 12, 13, 14, 15], [1, 2, 3, 4, 5, 6, 7, 8]⟩ 2 3 2 = some m' ∧
      transpose_threads_row [0, 1]
        ⟨[10, 11, 12, 13, 14, 15], [9, 9, 9, 9, 9, 9, 9]⟩ 2 3 2 = some m₂ ∧
      m'.A = [10, 11, 12, 13, 14, 15] ∧ m'.B.length = [1, 2, 3, 4, 5, 6, 7, 8].length ∧
      (∀ k, 2 * 3 ≤ k → m'.B[k]? = [1, 2, 3, 4, 5, 6, 7, 8][k]?) ∧
      (∀ k, k < 2 * 3 → m'.B[k]? = [10, 11, 12, 13, 14, 15][k % 2 * 3 + k / 2]?) ∧
      m'.B.take (2 * 3) = m₂.B.take (2 * 3)) ∧
    (∃ m' m₂, transpose_threads_col [0, 1]
        ⟨[10, 11, 12, 13, 14, 15], [1, 2, 3, 4, 5, 6, 7, 8]⟩ 2 3 2 = some m' ∧
      transpose_threads_col [0, 1]
        ⟨[10, 11, 12, 13, 14, 15], [9, 9, 9, 9, 9, 9, 9]⟩ 2 3 2 = some m₂ ∧
      m'.A = [10, 11, 12, 13, 14, 15] ∧ m'.B.length = [1, 2, 3, 4, 5, 6, 7, 8].length ∧
      (∀ k, 2 * 3 ≤ k → m'.B[k]? = [1, 2, 3, 4, 5, 6, 7, 8][k]?) ∧
      (∀ k, k < 2 * 3 → m'.B[k]? = [10, 11, 12, 13, 14, 15][k % 2 * 3 + k / 2]?) ∧
      m'.B.take (2 * 3) = m₂.B.take (2 * 3)) :=
  engine_frame [10, 11, 12, 13, 14, 15] [1, 2, 3, 4, 5, 6, 7, 8] [9, 9, 9, 9, 9, 9, 9] 2 3 2
    [0, 1] (by decide) (by decide) (by decide) (by decide) (by decide) (by decide) (by decide)
    (by decide) (by decide)


/-- C10, as stated, fails for `2^61` threads on a 1 x 2 matrix with a destination
of three elements: `num_thr * sizeof(..)` wraps to 0 for both arrays, the creation
loop stores `args[0]` outside the array, and no engine returns a state of which
the frame could be stated. -/
theorem engine_frame_counterexample :
    (¬ ∃ m', transpose_threads_row (List.range 2305843009213693952) ⟨[10, 11], [1, 2, 3]⟩ 1 2 2305843009213693952 = some m' ∧
      m'.A = [10, 11] ∧ m'.B[2]? = some 3) ∧
    (¬ ∃ m', transpose_threads_col (List.range 2305843009213693952) ⟨[10, 11], [1, 2, 3]⟩ 1 2 2305843009213693952 = some m' ∧
      m'.A = [10, 11] ∧ m'.B[2]? = some 3) := by
  have e₁ : transpose_threads_row (List.range 2305843009213693952) ⟨[10, 11], [1, 2, 3]⟩ 1 2 2305843009213693952 = none := by
    decide
  have e₂ : transpose_threads_col (List.range 2305843009213693952) ⟨[10, 11], [1, 2, 3]⟩ 1 2 2305843009213693952 = none := by
    decide
  constructor
  · rintro ⟨m', h, _⟩
    rw [e₁] at h
    cases h
  · rintro ⟨m', h, _⟩
    rw [e₂] at h
    cases h

/-! ## The access trace -/

/-- A loop whose body appends `g i` to a log appends the lists `g lo`, `g (lo+1)`, ... -/
theorem forLoopFrom_log {β : Type} (g : Nat → List β) (n : Nat) :
    ∀ (lo : Nat) (log : List β),
      forLoopFrom (fun i l => some (l ++ g i)) n lo log =
        some (log ++ (List.range' lo n).flatMap g) := by
  induction n with
  | zero => intro lo log; simp [forLoopFrom]
  | succ n ih =>
    intro lo log
    simp only [forLoopFrom, Option.bind, ih, List.range'_succ, List.flatMap_cons,
      List.append_assoc]

/-- A loop whose body performs the list `g i` of steps performs the concatenation
of these lists. -/
theorem forLoopFrom_foldlM {σ β : Type} (run : σ → β → Option σ) (g : Nat → List β) (n : Nat) :
    ∀ (lo : Nat) (s : σ),
      forLoopFrom (fun i t => (g i).foldlM run t) n lo s =
        ((List.range' lo n).flatMap g).foldlM run s := by
  induction n with
  | zero => intro lo s; simp [forLoopFrom]
  | succ n ih =>
    intro lo s
    simp only [forLoopFrom, List.range'_succ, List.flatMap_cons, List.foldlM_append]
    cases h : List.foldlM run s (g lo) with
    | none => rfl
    | some t => exact ih (lo + 1) t

/-- The trace of the kernel lists the accesses of the cells of the block, rows
outermost. -/
theorem TRANSPOSE_BLK_trace_eq (R C r_min c_min r_max c_max : Nat) :
    TRANSPOSE_BLK_trace R C r_min c_min r_max c_max =
      (List.range' r_min (r_max - r_min)).flatMap (fun r =>
        (List.range' c_min (c_max - c_min)).flatMap (fun c => [blk_access R C r c])) := by
  unfold TRANSPOSE_BLK_trace forLoop
  have h : (fun r => forLoopFrom (fun c (log : List (Nat × Nat)) =>
        some (log ++ [blk_access R C r c])) (c_max - c_min) c_min) =
      (fun r log => some (log ++
        (List.range' c_min (c_max - c_min)).flatMap (fun c => [blk_access R C r c]))) := by
    funext r log
    exact forLoopFrom_log (fun c => [blk_access R C r c]) _ _ _
  rw [h, forLoopFrom_log]
  simp

/-- The kernel performs exactly the accesses of its trace, in order. -/
theorem TRANSPOSE_BLK_eq_foldlM {α : Type} (R C r_min c_min r_max c_max : Nat) (m : Mem α) :
    TRANSPOSE_BLK R C r_min c_min r_max c_max m =
      (TRANSPOSE_BLK_trace R C r_min c_min r_max c_max).foldlM
        (fun s acc => do_access acc s) m := by
  rw [TRANSPOSE_BLK_trace_eq]
  unfold TRANSPOSE_BLK forLoop
  have h : (fun r => forLoopFrom (fun c => @blk_assign α R C r c) (c_max - c_min) c_min) =
      (fun r t => ((List.range' c_min (c_max - c_min)).flatMap
        (fun c => [blk_access R C r c])).foldlM (fun s acc => do_access acc s) t) := by
    funext r t
    rw [← forLoopFrom_foldlM]
    congr 1
    funext c u
    simp only [List.foldlM_cons, List.foldlM_nil]
    show blk_assign R C r c u = (do_access (blk_access R C r c) u).bind some
    rw [Option.bind_some]
    rfl
  rw [h]
  exact forLoopFrom_foldlM _ _ _ _ _

theorem mem_TRANSPOSE_BLK_trace (R C r_min c_min r_max c_max : Nat) (p : Nat × Nat) :
    p ∈ TRANSPOSE_BLK_trace R C r_min c_min r_max c_max ↔
      ∃ r c, r_min ≤ r ∧ r < r_max ∧ c_min ≤ c ∧ c < c_max ∧ p = blk_access R C r c := by
  rw [TRANSPOSE_BLK_trace_eq]
  simp only [List.mem_flatMap, List.mem_range'_1, List.mem_singleton]
  constructor
  · rintro ⟨r, ⟨h1, h2⟩, c, ⟨h3, h4⟩, h5⟩
    exact ⟨r, c, h1, by omega, h3, by omega, h5⟩
  · rintro ⟨r, c, h1, h2, h3, h4, h5⟩
    exact ⟨r, ⟨h1, by omega⟩, c, ⟨h3, by omega⟩, h5⟩

theorem blk_access_eq {R C r c : Nat} (hRC : R * C < SIZE_MOD) (hr : r < R) (hc : c < C) :
    blk_access R C r c = (r * C + c, c * R + r) := by
  have hsrc : r * C + c < R * C := by
    have := @cell_lt C R c r hc hr
    rw [Nat.mul_comm C R] at this
    exact this
  have hdst : c * R + r < R * C := cell_lt hr hc
  unfold blk_access
  rw [szMul_eq (by omega), szAdd_eq (by omega), szMul_eq (by omega), szAdd_eq (by omega)]

theorem flatMap_singleton_eq_map {β γ : Type} (g : β → γ) (l : List β) :
    l.flatMap (fun c => [g c]) = l.map g := by
  induction l with
  | nil => rfl
  | cons x xs ih => simp [ih]

/-- The trace as the image of the list of the cells of the block. -/
theorem TRANSPOSE_BLK_trace_eq_map (R C r_min c_min r_max c_max : Nat) :
    TRANSPOSE_BLK_trace R C r_min c_min r_max c_max =
      ((List.range' r_min (r_max - r_min)) ×ˢ (List.range' c_min (c_max - c_min))).map
        (fun p => blk_access R C p.1 p.2) := by
  rw [TRANSPOSE_BLK_trace_eq]
  show _ = (List.product _ _).map _
  unfold List.product
  rw [List.map_flatMap]
  congr 1
  funext r
  rw [flatMap_singleton_eq_map, List.map_map]
  rfl

theorem cell_dst_inj {R r₁ c₁ r₂ c₂ : Nat} (h₁ : r₁ < R) (h₂ : r₂ < R)
    (h : c₁ * R + r₁ = c₂ * R + r₂) : r₁ = r₂ ∧ c₁ = c₂ := by
  have a₁ : (c₁ * R + r₁) % R = r₁ := by
    rw [Nat.add_comm, Nat.add_mul_mod_self_right]; exact Nat.mod_eq_of_lt h₁
  have a₂ : (c₂ * R + r₂) % R = r₂ := by
    rw [Nat.add_comm, Nat.add_mul_mod_self_right]; exact Nat.mod_eq_of_lt h₂
  have hr : r₁ = r₂ := by rw [← a₁, h, a₂]
  subst hr
  exact ⟨rfl, Nat.eq_of_mul_eq_mul_right (by omega : 0 < R) (by omega)⟩

/-- Membership in the writes of a worker whose block lies inside the matrix. -/
theorem mem_thread_writes {R C : Nat} (a : tr_thread_arg) (hRC : R * C < SIZE_MOD)
    (hR : a.A_rows = R) (hC : a.A_cols = C) (hr : a.r_max ≤ R) (hc : a.c_max ≤ C) (k : Nat) :
    k ∈ thread_writes a ↔
      ∃ r c, a.r_min ≤ r ∧ r < a.r_max ∧ a.c_min ≤ c ∧ c < a.c_max ∧ k = c * R + r := by
  unfold thread_writes thread_trace
  rw [List.mem_map, hR, hC]
  constructor
  · rintro ⟨p, hp, rfl⟩
    obtain ⟨r, c, h1, h2, h3, h4, h5⟩ := (mem_TRANSPOSE_BLK_trace _ _ _ _ _ _ p).1 hp
    refine ⟨r, c, h1, h2, h3, h4, ?_⟩
    rw [h5, blk_access_eq hRC (by omega) (by omega)]
  · rintro ⟨r, c, h1, h2, h3, h4, h5⟩
    refine ⟨blk_access R C r c, (mem_TRANSPOSE_BLK_trace _ _ _ _ _ _ _).2
      ⟨r, c, h1, h2, h3, h4, rfl⟩, ?_⟩
    rw [h5, blk_access_eq hRC (by omega) (by omega)]

/-- Membership in the reads of a worker whose block lies inside the matrix. -/
theorem mem_thread_reads {R C : Nat} (a : tr_thread_arg) (hRC : R * C < SIZE_MOD)
    (hR : a.A_rows = R) (hC : a.A_cols = C) (hr : a.r_max ≤ R) (hc : a.c_max ≤ C) (k : Nat) :
    k ∈ thread_reads a ↔
      ∃ r c, a.r_min ≤ r ∧ r < a.r_max ∧ a.c_min ≤ c ∧ c < a.c_max ∧ k = r * C + c := by
  unfold thread_reads thread_trace
  rw [List.mem_map, hR, hC]
  constructor
  · rintro ⟨p, hp, rfl⟩
    obtain ⟨r, c, h1, h2, h3, h4, h5⟩ := (mem_TRANSPOSE_BLK_trace _ _ _ _ _ _ p).1 hp
    refine ⟨r, c, h1, h2, h3, h4, ?_⟩
    rw [h5, blk_access_eq hRC (by omega) (by omega)]
  · rintro ⟨r, c, h1, h2, h3, h4, h5⟩
    refine ⟨blk_access R C r c, (mem_TRANSPOSE_BLK_trace _ _ _ _ _ _ _).2
      ⟨r, c, h1, h2, h3, h4, rfl⟩, ?_⟩
    rw [h5, blk_access_eq hRC (by omega) (by omega)]

/-- A worker whose block lies inside the matrix writes no index twice. -/
theorem thread_writes_nodup {R C : Nat} (a : tr_thread_arg) (hRC : R * C < SIZE_MOD)
    (hR : a.A_rows = R) (hC : a.A_cols = C) (hr : a.r_max ≤ R) (hc : a.c_max ≤ C) :
    (thread_writes a).Nodup := by
  unfold thread_writes thread_trace
  rw [TRANSPOSE_BLK_trace_eq_map, List.map_map, hR, hC]
  apply List.Nodup.map_on _ ((List.nodup_range' _ _).product (List.nodup_range' _ _))
  rintro ⟨r₁, c₁⟩ h₁ ⟨r₂, c₂⟩ h₂ h
  rw [List.mem_product, List.mem_range'_1, List.mem_range'_1] at h₁ h₂
  simp only [Function.comp] at h
  rw [blk_access_eq hRC (by omega) (by omega), blk_access_eq hRC (by omega) (by omega)] at h
  obtain ⟨e₁, e₂⟩ := cell_dst_inj (by omega) (by omega) h
  rw [e₁, e₂]

/-- A worker whose block lies inside the matrix reads no index twice. -/
theorem thread_reads_nodup {R C : Nat} (a : tr_thread_arg) (hRC : R * C < SIZE_MOD)
    (hR : a.A_rows = R) (hC : a.A_cols = C) (hr : a.r_max ≤ R) (hc : a.c_max ≤ C) :
    (thread_reads a).Nodup := by
  unfold thread_reads thread_trace
  rw [TRANSPOSE_BLK_trace_eq_map, List.map_map, hR, hC]
  apply List.Nodup.map_on _ ((List.nodup_range' _ _).product (List.nodup_range' _ _))
  rintro ⟨r₁, c₁⟩ h₁ ⟨r₂, c₂⟩ h₂ h
  rw [List.mem_product, List.mem_range'_1, List.mem_range'_1] at h₁ h₂
  simp only [Function.comp] at h
  rw [blk_access_eq hRC (by omega) (by omega), blk_access_eq hRC (by omega) (by omega)] at h
  obtain ⟨e₁, e₂⟩ := @cell_dst_inj C c₁ r₁ c₂ r₂ (by omega) (by omega) h
  rw [e₁, e₂]

/-- A unit lies in the range of one worker only. -/
theorem part_min_unique (D N : Nat) {i j x : Nat}
    (h1 : part_min D N i ≤ x) (h2 : x < part_min D N (i + 1))
    (h3 : part_min D N j ≤ x) (h4 : x < part_min D N (j + 1)) : i = j := by
  by_contra hij
  rcases Nat.lt_or_gt_of_ne hij with h | h
  · have : part_min D N (i + 1) ≤ part_min D N j := part_min_mono D N h
    omega
  · have : part_min D N (j + 1) ≤ part_min D N i := part_min_mono D N h
    omega

/-- The blocks of the workers of an engine lie inside the matrix, no cell is in the
blocks of two workers, and every cell of the matrix is in the block of a worker. -/
theorem args_blocks (R C T : Nat) (arg : Nat → tr_thread_arg)
    (hR : R < SIZE_MOD) (hC : C < SIZE_MOD) (hT : 0 < T) (hT2 : T < SIZE_MOD)
    (harg : arg = row_arg R C T ∨ arg = col_arg R C T) :
    (∀ i, i < T → (arg i).A_rows = R ∧ (arg i).A_cols = C ∧
      (arg i).r_min ≤ (arg i).r_max ∧ (arg i).r_max ≤ R ∧
      (arg i).c_min ≤ (arg i).c_max ∧ (arg i).c_max ≤ C) ∧
    (∀ i j, i < T → j < T → ∀ r c,
      ((arg i).r_min ≤ r ∧ r < (arg i).r_max ∧ (arg i).c_min ≤ c ∧ c < (arg i).c_max) →
      ((arg j).r_min ≤ r ∧ r < (arg j).r_max ∧ (arg j).c_min ≤ c ∧ c < (arg j).c_max) →
      i = j) ∧
    (∀ r c, r < R → c < C → ∃ i, i < T ∧
      (arg i).r_min ≤ r ∧ r < (arg i).r_max ∧ (arg i).c_min ≤ c ∧ c < (arg i).c_max) := by
  rcases harg with h | h
  · have e : ∀ i, i < T → arg i =
        tt_arg_init R C (part_min R T i) (part_min R T (i + 1)) 0 C i := by
      intro i hi
      rw [h]
      simp only [row_arg, row_bounds_eq R T i hR hT2 hi]
    refine ⟨?_, ?_, ?_⟩
    · intro i hi
      rw [e i hi]
      exact ⟨rfl, rfl, part_min_mono R T (Nat.le_succ i), part_min_le R T (i + 1) hT hi,
        Nat.zero_le _, le_refl _⟩
    · intro i j hi hj r c
      rw [e i hi, e j hj]
      rintro ⟨h1, h2, _, _⟩ ⟨h3, h4, _, _⟩
      exact part_min_unique R T h1 h2 h3 h4
    · intro r c hr hc
      obtain ⟨i, hi, h1, h2⟩ := part_cover R T hT hr
      refine ⟨i, hi, ?_⟩
      rw [e i hi]
      exact ⟨h1, h2, Nat.zero_le _, hc⟩
  · have e : ∀ i, i < T → arg i =
        tt_arg_init R C 0 R (part_min C T i) (part_min C T (i + 1)) i := by
      intro i hi
      rw [h]
      simp only [col_arg, col_bounds_eq C T i hC hT2 hi]
    refine ⟨?_, ?_, ?_⟩
    · intro i hi
      rw [e i hi]
      exact ⟨rfl, rfl, Nat.zero_le _, le_refl _, part_min_mono C T (Nat.le_succ i),
        part_min_le C T (i + 1) hT hi⟩
    · intro i j hi hj r c
      rw [e i hi, e j hj]
      rintro ⟨_, _, h1, h2⟩ ⟨_, _, h3, h4⟩
      exact part_min_unique C T h1 h2 h3 h4
    · intro r c hr hc
      obtain ⟨i, hi, h1, h2⟩ := part_cover C T hT hc
      refine ⟨i, hi, ?_⟩
      rw [e i hi]
      exact ⟨Nat.zero_le _, hr, h1, h2⟩

/-! ## Disjoint regions of the workers -/

/-- C13: for `R`, `C` with a representable product and `T ≥ 1` threads, in either
engine the lists of `B` indices that two distinct workers write have no common
element, the lists of `A` indices that they read have no common element, and every
index of `B` below `R * C` occurs exactly once in the writes of exactly one
worker. -/
theorem workers_disjoint (R C T : Nat) (arg : Nat → tr_thread_arg)
    (hR : R < SIZE_MOD) (hC : C < SIZE_MOD) (hRC : R * C < SIZE_MOD)
    (hT : 1 ≤ T) (hT2 : T < SIZE_MOD)
    (harg : arg = row_arg R C T ∨ arg = col_arg R C T) :
    (∀ i j, i < T → j < T → i ≠ j →
      ∀ k, ¬ (k ∈ thread_writes (arg i) ∧ k ∈ thread_writes (arg j))) ∧
    (∀ i j, i < T → j < T → i ≠ j →
      ∀ k, ¬ (k ∈ thread_reads (arg i) ∧ k ∈ thread_reads (arg j))) ∧
    (∀ k, k < R * C → ∃ i, i < T ∧ (thread_writes (arg i)).count k = 1 ∧
      ∀ j, j < T → k ∈ thread_writes (arg j) → j = i) := by
  obtain ⟨hin, hdis, hcov⟩ := args_blocks R C T arg hR hC hT hT2 harg
  have hw : ∀ i, i < T → ∀ k, k ∈ thread_writes (arg i) ↔
      ∃ r c, (arg i).r_min ≤ r ∧ r < (arg i).r_max ∧ (arg i).c_min ≤ c ∧
        c < (arg i).c_max ∧ k = c * R + r := by
    intro i hi k
    obtain ⟨h1, h2, _, h4, _, h6⟩ := hin i hi
    exact mem_thread_writes (arg i) hRC h1 h2 h4 h6 k
  have hrd : ∀ i, i < T → ∀ k, k ∈ thread_reads (arg i) ↔
      ∃ r c, (arg i).r_min ≤ r ∧ r < (arg i).r_max ∧ (arg i).c_min ≤ c ∧
        c < (arg i).c_max ∧ k = r * C + c := by
    intro i hi k
    obtain ⟨h1, h2, _, h4, _, h6⟩ := hin i hi
    exact mem_thread_reads (arg i) hRC h1 h2 h4 h6 k
  have hwd : ∀ i j, i < T → j < T → ∀ k,
      k ∈ thread_writes (arg i) → k ∈ thread_writes (arg j) → i = j := by
    intro i j hi hj k h1 h2
    obtain ⟨r₁, c₁, a1, a2, a3, a4, a5⟩ := (hw i hi k).1 h1
    obtain ⟨r₂, c₂, b1, b2, b3, b4, b5⟩ := (hw j hj k).1 h2
    obtain ⟨_, _, _, i4, _, _⟩ := hin i hi
    obtain ⟨_, _, _, j4, _, _⟩ := hin j hj
    obtain ⟨e₁, e₂⟩ := cell_dst_inj (by omega : r₁ < R) (by omega : r₂ < R) (a5.symm.trans b5)
    subst e₁ e₂
    exact hdis i j hi hj r₁ c₁ ⟨a1, a2, a3, a4⟩ ⟨b1, b2, b3, b4⟩
  refine ⟨?_, ?_, ?_⟩
  · intro i j hi hj hij k hk
    exact hij (hwd i j hi hj k hk.1 hk.2)
  · rintro i j hi hj hij k ⟨h1, h2⟩
    obtain ⟨r₁, c₁, a1, a2, a3, a4, a5⟩ := (hrd i hi k).1 h1
    obtain ⟨r₂, c₂, b1, b2, b3, b4, b5⟩ := (hrd j hj k).1 h2
    obtain ⟨_, _, _, _, _, i6⟩ := hin i hi
    obtain ⟨_, _, _, _, _, j6⟩ := hin j hj
    obtain ⟨e₁, e₂⟩ := @cell_dst_inj C c₁ r₁ c₂ r₂ (by omega) (by omega) (a5.symm.trans b5)
    subst e₁ e₂
    exact hij (hdis i j hi hj r₁ c₁ ⟨a1, a2, a3, a4⟩ ⟨b1, b2, b3, b4⟩)
  · intro k hk
    obtain ⟨h1, h2, h3⟩ := index_decomp hk
    obtain ⟨i, hi, b1, b2, b3, b4⟩ := hcov (k % R) (k / R) h1 h2
    have hmem : k ∈ thread_writes (arg i) := (hw i hi k).2 ⟨k % R, k / R, b1, b2, b3, b4, h3⟩
    obtain ⟨e1, e2, _, e4, _, e6⟩ := hin i hi
    refine ⟨i, hi, List.count_eq_one_of_mem (thread_writes_nodup (arg i) hRC e1 e2 e4 e6) hmem,
      fun j hj hjk => hwd j i hj hi k hjk hmem⟩

/-- A 2 x 3 matrix divided by rows among two threads. -/
theorem workers_disjoint_witness :
    (∀ i j, i < 2 → j < 2 → i ≠ j →
      ∀ k, ¬ (k ∈ thread_writes (row_arg 2 3 2 i) ∧ k ∈ thread_writes (row_arg 2 3 2 j))) ∧
    (∀ i j, i < 2 → j < 2 → i ≠ j →
      ∀ k, ¬ (k ∈ thread_reads (row_arg 2 3 2 i) ∧ k ∈ thread_reads (row_arg 2 3 2 j))) ∧
    (∀ k, k < 2 * 3 → ∃ i, i < 2 ∧ (thread_writes (row_arg 2 3 2 i)).count k = 1 ∧
      ∀ j, j < 2 → k ∈ thread_writes (row_arg 2 3 2 j) → j = i) :=
  workers_disjoint 2 3 2 (row_arg 2 3 2) (by decide) (by decide) (by decide) (by decide)
    (by decide) (Or.inl rfl)

/-! ## The kernel of one worker and the order of the workers -/

/-- C14: for a block `[r_min, r_max) x [c_min, c_max)` with `r_max ≤ A_rows` and
`c_max ≤ A_cols`, on buffers of `A_rows * A_cols` elements (a representable
product), the thread body returns a state `m'` with `A` as before, with
`B'[c * A_rows + r] = A[r * A_cols + c]` for every cell `(r, c)` of the block, and
with `B'[k] = B[k]` at every index `k` that is not the destination of a cell of the
block. -/
theorem worker_kernel {α : Type} (A B : List α)
    (A_rows A_cols r_min r_max c_min c_max thr_num : Nat)
    (hRC : A_rows * A_cols < SIZE_MOD)
    (hA : A.length = A_rows * A_cols) (hB : B.length = A_rows * A_cols)
    (hr : r_max ≤ A_rows) (hc : c_max ≤ A_cols) :
    ∃ m', transpose_thread (tt_arg_init A_rows A_cols r_min r_max c_min c_max thr_num) ⟨A, B⟩
        = some m' ∧
      m'.A = A ∧ m'.B.length = B.length ∧
      (∀ r c, r_min ≤ r → r < r_max → c_min ≤ c → c < c_max →
        m'.B[c * A_rows + r]? = A[r * A_cols + c]?) ∧
      (∀ k, (¬ ∃ r c, r_min ≤ r ∧ r < r_max ∧ c_min ≤ c ∧ c < c_max ∧ k = c * A_rows + r) →
        m'.B[k]? = B[k]?) := by
  have hm : BufOk A_rows A_cols (⟨A, B⟩ : Mem α) := ⟨hA.ge, hB.ge⟩
  obtain ⟨m', e, w⟩ := TRANSPOSE_BLK_spec r_min c_min r_max c_max (⟨A, B⟩ : Mem α) hRC hm hr hc
  refine ⟨m', e, w.1, w.2.1, ?_, ?_⟩
  · intro r c h1 h2 h3 h4
    rw [(w.2.2 (c * A_rows + r)).1 ⟨r, c, h1, h2, h3, h4, rfl⟩, src_index_cell (by omega)]
  · intro k hk
    exact (w.2.2 k).2 hk

/-- The lower right 1 x 2 block of a 2 x 3 matrix. -/
theorem worker_kernel_witness :
    ∃ m', transpose_thread (tt_arg_init 2 3 1 2 1 3 0)
        ⟨[10, 11, 12, 13, 14, 15], [0, 0, 0, 0, 0, 0]⟩ = some m' ∧
      m'.A = [10, 11, 12, 13, 14, 15] ∧ m'.B.length = [0, 0, 0, 0, 0, 0].length ∧
      (∀ r c, 1 ≤ r → r < 2 → 1 ≤ c → c < 3 →
        m'.B[c * 2 + r]? = [10, 11, 12, 13, 14, 15][r * 3 + c]?) ∧
      (∀ k, (¬ ∃ r c, 1 ≤ r ∧ r < 2 ∧ 1 ≤ c ∧ c < 3 ∧ k = c * 2 + r) →
        m'.B[k]? = [0, 0, 0, 0, 0, 0][k]?) :=
  worker_kernel [10, 11, 12, 13, 14, 15] [0, 0, 0, 0, 0, 0] 2 3 1 2 1 3 0
    (by decide) (by decide) (by decide) (by decide) (by decide)

/-- The argument structures of an engine satisfy the premise of `run_workers_spec`. -/
theorem engine_args_ok (R C T : Nat) (args : List tr_thread_arg)
    (hR : R < SIZE_MOD) (hC : C < SIZE_MOD) (hT : 0 < T) (hT2 : T < SIZE_MOD)
    (hargs : args = row_args R C T ∨ args = col_args R C T) :
    ∀ (i : Nat) (a : tr_thread_arg), args[i]? = some a →
      a.A_rows = R ∧ a.A_cols = C ∧ a.r_max ≤ R ∧ a.c_max ≤ C := by
  intro i a h
  rcases hargs with e | e
  · rw [e, row_args_get] at h
    split_ifs at h with hi
    cases h
    obtain ⟨h1, h2, _, h4, _, h6⟩ :=
      (args_blocks R C T (row_arg R C T) hR hC hT hT2 (Or.inl rfl)).1 i hi
    exact ⟨h1, h2, h4, h6⟩
  · rw [e, col_args_get] at h
    split_ifs at h with hi
    cases h
    obtain ⟨h1, h2, _, h4, _, h6⟩ :=
      (args_blocks R C T (col_arg R C T) hR hC hT hT2 (Or.inr rfl)).1 i hi
    exact ⟨h1, h2, h4, h6⟩

theorem bounds_exact_eq (D N i : Nat) :
    bounds_exact D N i = (part_min D N i, part_min D N (i + 1)) := by
  have hsucc := part_min_succ D N i
  unfold bounds_exact
  split_ifs with h
  · rw [if_pos h] at hsucc
    have hmin : part_min D N i = i * (D / N + 1) := by
      unfold part_min; rw [min_eq_left h.le]; ring
    rw [hsucc, hmin]
  · rw [if_neg h] at hsucc
    have hmin : part_min D N i = D % N * (D / N + 1) + (i - D % N) * (D / N) := by
      unfold part_min; rw [min_eq_right (by omega : D % N ≤ i)]
      have : i * (D / N) = (D % N) * (D / N) + (i - D % N) * (D / N) := by
        rw [← Nat.add_mul]; congr 1; omega
      rw [this]; ring
    rw [hsucc, hmin]

/-- The sum `min_rows_per_thread + 1` wraps only for the largest dimension and one
thread. -/
theorem max_per_thread_wrap (D N : Nat) (hD : D < SIZE_MOD) (hN : 1 ≤ N) :
    szAdd (D / N) 1 ≠ D / N + 1 ↔ D = SIZE_MOD - 1 ∧ N = 1 := by
  have hle : D / N ≤ D := Nat.div_le_self D N
  have hlt : 0 < D → 1 < N → D / N < D := fun h1 h2 => Nat.div_lt_self h1 h2
  have hpos : 1 < SIZE_MOD := by decide
  constructor
  · intro h
    have hge : SIZE_MOD ≤ D / N + 1 := by
      by_contra hcon
      exact h (szAdd_eq (by omega))
    generalize D / N = b at *
    refine ⟨by omega, ?_⟩
    by_contra hN1
    have := hlt (by omega) (by omega)
    omega
  · rintro ⟨h1, h2⟩
    subst h2
    rw [Nat.div_one, h1]
    have e : SIZE_MOD - 1 + 1 = SIZE_MOD := by omega
    unfold szAdd
    rw [e, Nat.mod_self]
    omega

/-- C18: with `size_t` arithmetic modulo `2^64`, for a dimension `D < 2^64`, a
thread count `1 ≤ N < 2^64` and a worker `i < N`, the bounds computed by either
creation loop equal the bounds of the formula in unbounded arithmetic; every
product and sum of the formula that enters the bounds is at most `D`; and the sum
`D / N + 1` wraps exactly when `D = 2^64 - 1` and `N = 1`, where the bounds are
still the exact ones. -/
theorem no_overflow (D N i : Nat) (f : Nat → Nat × Nat)
    (hD : D < SIZE_MOD) (hN : 1 ≤ N) (hN2 : N < SIZE_MOD) (hi : i < N)
    (hf : f = row_bounds D N ∨ f = col_bounds D N) :
    f i = bounds_exact D N i ∧
    (i < D % N → i * (D / N + 1) ≤ D ∧ i * (D / N + 1) + (D / N + 1) ≤ D) ∧
    (¬ i < D % N → D % N * (D / N + 1) ≤ D ∧ (i - D % N) * (D / N) ≤ D ∧
      D % N * (D / N + 1) + (i - D % N) * (D / N) ≤ D ∧
      D % N * (D / N + 1) + (i - D % N) * (D / N) + D / N ≤ D) ∧
    (szAdd (D / N) 1 ≠ D / N + 1 ↔ D = SIZE_MOD - 1 ∧ N = 1) := by
  have hfi : f i = (part_min D N i, part_min D N (i + 1)) := by
    rcases hf with h | h <;> rw [h]
    · exact row_bounds_eq D N i hD hN2 hi
    · exact col_bounds_eq D N i hD hN2 hi
  have hex := bounds_exact_eq D N i
  have hle : part_min D N (i + 1) ≤ D := part_min_le D N (i + 1) hN hi
  refine ⟨by rw [hfi, hex], ?_, ?_, max_per_thread_wrap D N hD hN⟩
  · intro h
    unfold bounds_exact at hex
    rw [if_pos h] at hex
    have h2 := congrArg Prod.snd hex
    simp only at h2
    generalize D / N = b at *
    generalize D % N = e at *
    omega
  · intro h
    unfold bounds_exact at hex
    rw [if_neg h] at hex
    have h2 := congrArg Prod.snd hex
    simp only at h2
    generalize D / N = b at *
    generalize D % N = e at *
    omega

/-- The largest dimension and one thread, where `D / N + 1` wraps to zero. -/
theorem no_overflow_witness :
    row_bounds 18446744073709551615 1 0 = bounds_exact 18446744073709551615 1 0 ∧
    (0 < 18446744073709551615 % 1 →
      0 * (18446744073709551615 / 1 + 1) ≤ 18446744073709551615 ∧
      0 * (18446744073709551615 / 1 + 1) + (18446744073709551615 / 1 + 1)
        ≤ 18446744073709551615) ∧
    (¬ 0 < 18446744073709551615 % 1 →
      18446744073709551615 % 1 * (18446744073709551615 / 1 + 1) ≤ 18446744073709551615 ∧
      (0 - 18446744073709551615 % 1) * (18446744073709551615 / 1) ≤ 18446744073709551615 ∧
      18446744073709551615 % 1 * (18446744073709551615 / 1 + 1) +
        (0 - 18446744073709551615 % 1) * (18446744073709551615 / 1)
          ≤ 18446744073709551615 ∧
      18446744073709551615 % 1 * (18446744073709551615 / 1 + 1) +
        (0 - 18446744073709551615 % 1) * (18446744073709551615 / 1) +
          18446744073709551615 / 1 ≤ 18446744073709551615) ∧
    (szAdd (18446744073709551615 / 1) 1 ≠ 18446744073709551615 / 1 + 1 ↔
      18446744073709551615 = SIZE_MOD - 1 ∧ 1 = 1) :=
  no_overflow 18446744073709551615 1 0 (row_bounds 18446744073709551615 1)
    (by decide) (by decide) (by decide) (by decide) (Or.inl rfl)

/-! ## Transposing twice -/

/-- Either engine, with every worker scheduled, is defined and writes every index
below `R * C`. -/
theorem engine_spec {α : Type} {R C T : Nat}
    (E : List Nat → Mem α → Nat → Nat → Nat → Option (Mem α))
    (hE : E = transpose_threads_row ∨ E = transpose_threads_col)
    (sched : List Nat) (m : Mem α)
    (hR : R < SIZE_MOD) (hC : C < SIZE_MOD) (hRC : R * C < SIZE_MOD)
    (hT : 0 < T) (hcap : T * SIZEOF_TR_THREAD_ARG < SIZE_MOD)
    (hm : BufOk R C m) (hs : sched.Perm (List.range T)) :
    ∃ m', E sched m R C T = some m' ∧ Wrote R C (fun k => k < R * C) m m' := by
  rcases hE with h | h <;> rw [h]
  · exact transpose_threads_row_spec sched m hR hRC hT (lt_of_cap hcap) hcap hm (sched_covers hs)
  · exact transpose_threads_col_spec sched m hC hRC hT (lt_of_cap hcap) hcap hm (sched_covers hs)

/-- C19, amended: for a source `A` of `R * C` elements, thread counts `T₁, T₂ ≥ 1`
whose array sizes `T * sizeof(struct tr_thread_arg)` are representable, and any
choice of the two engines, transposing `A` (as `R x C`) into `B` and then the
result (as `C x R`) into a buffer `A2` of `R * C` elements returns `A2` equal to
`A`. -/
theorem transpose_involution {α : Type} (A B A2 : List α) (R C T₁ T₂ : Nat) (s₁ s₂ : List Nat)
    (E₁ E₂ : List Nat → Mem α → Nat → Nat → Nat → Option (Mem α))
    (hE₁ : E₁ = transpose_threads_row ∨ E₁ = transpose_threads_col)
    (hE₂ : E₂ = transpose_threads_row ∨ E₂ = transpose_threads_col)
    (hR : R < SIZE_MOD) (hC : C < SIZE_MOD) (hRC : R * C < SIZE_MOD)
    (hT₁ : 1 ≤ T₁) (hcap₁ : T₁ * SIZEOF_TR_THREAD_ARG < SIZE_MOD)
    (hT₂ : 1 ≤ T₂) (hcap₂ : T₂ * SIZEOF_TR_THREAD_ARG < SIZE_MOD)
    (hA : A.length = R * C) (hB : B.length = R * C) (hA2 : A2.length = R * C)
    (hs₁ : s₁.Perm (List.range T₁)) (hs₂ : s₂.Perm (List.range T₂)) :
    ∃ m' m'', E₁ s₁ ⟨A, B⟩ R C T₁ = some m' ∧ E₂ s₂ ⟨m'.B, A2⟩ C R T₂ = some m'' ∧
      m''.B = A := by
  have hm : BufOk R C (⟨A, B⟩ : Mem α) := ⟨hA.ge, hB.ge⟩
  obtain ⟨m', e₁, w₁⟩ := engine_spec E₁ hE₁ s₁ ⟨A, B⟩ hR hC hRC hT₁ hcap₁ hm hs₁
  have hCR : C * R = R * C := Nat.mul_comm C R
  have hm₂ : BufOk C R (⟨m'.B, A2⟩ : Mem α) := by
    constructor
    · show C * R ≤ m'.B.length
      rw [w₁.2.1]; exact (hB.trans hCR.symm).ge
    · exact (hA2.trans hCR.symm).ge
  obtain ⟨m'', e₂, w₂⟩ :=
    engine_spec E₂ hE₂ s₂ ⟨m'.B, A2⟩ hC hR (by rw [hCR]; exact hRC) hT₂ hcap₂ hm₂ hs₂
  refine ⟨m', m'', e₁, e₂, ?_⟩
  apply List.ext_getElem?
  intro k
  by_cases hk : k < C * R
  · obtain ⟨h1, h2, h3⟩ := index_decomp hk
    rw [w₂.get_index hk]
    show m'.B[k % C * R + k / C]? = A[k]?
    rw [w₁.get_cell h2 h1]
    show A[k / C * C + k % C]? = A[k]?
    rw [← h3]
  · rw [w₂.get_rest (by omega)]
    show A2[k]? = A[k]?
    rw [List.getElem?_eq_none (by omega), List.getElem?_eq_none (by omega)]

/-- A 2 x 3 matrix transposed by rows with two threads and back by columns with
three threads. -/
theorem transpose_involution_witness :
    ∃ m' m'', transpose_threads_row [1, 0] ⟨[10, 11, 12, 13, 14, 15], [0, 0, 0, 0, 0, 0]⟩ 2 3 2
        = some m' ∧
      transpose_threads_col [0, 2, 1] ⟨m'.B, [7, 7, 7, 7, 7, 7]⟩ 3 2 3 = some m'' ∧
      m''.B = [10, 11, 12, 13, 14, 15] :=
  transpose_involution [10, 11, 12, 13, 14, 15] [0, 0, 0, 0, 0, 0] [7, 7, 7, 7, 7, 7] 2 3 2 3
    [1, 0] [0, 2, 1] transpose_threads_row transpose_threads_col (Or.inl rfl) (Or.inr rfl)
    (by decide) (by decide) (by decide) (by decide) (by decide) (by decide) (by decide)
    (by decide) (by decide) (by decide) (by decide) (by decide)

/-- C19, as stated, fails when the first transposition of a 2 x 2 matrix runs with
`2^61` threads: `num_thr * sizeof(..)` wraps to 0 for both arrays, the creation loop
stores `args[0]` outside the array, and there is no `B` to transpose back. -/
theorem transpose_involution_counterexample :
    ¬ ∃ m' m'', transpose_threads_row (List.range 2305843009213693952) ⟨[1, 2, 3, 4], [0, 0, 0, 0]⟩ 2 2 2305843009213693952
        = some m' ∧
      transpose_threads_col [0] ⟨m'.B, [0, 0, 0, 0]⟩ 2 2 1 = some m'' ∧
      m''.B = [1, 2, 3, 4] := by
  have e : transpose_threads_row (List.range 2305843009213693952) ⟨[1, 2, 3, 4], [0, 0, 0, 0]⟩ 2 2 2305843009213693952
      = none := by decide
  rintro ⟨m', m'', h, _⟩
  rw [e] at h
  cases h

/-! ## Failure of thread creation and joining -/

theorem create_loop_ok (perror_errno : Int → Int) (create_rc : Nat → Int)
    (cap_threads cap_args n : Nat) :
    ∀ (lo : Nat) (acc : List Nat), lo + n ≤ cap_threads → lo + n ≤ cap_args →
      (∀ k, lo ≤ k → k < lo + n → create_rc k = 0) →
      create_loop perror_errno create_rc cap_threads cap_args n lo acc =
        (acc ++ List.range' lo n, LoopEnd.completed) := by
  induction n with
  | zero => intro lo acc _ _ _; simp [create_loop]
  | succ n ih =>
    intro lo acc h1 h2 h
    have h0 : create_rc lo = 0 := h lo (le_refl _) (by omega)
    simp only [create_loop, if_neg (by omega : ¬ cap_args ≤ lo),
      if_neg (by omega : ¬ cap_threads ≤ lo), h0, ne_eq, not_true_eq_false, if_false]
    rw [ih (lo + 1) (acc ++ [lo]) (by omega) (by omega)
      (fun k h3 h4 => h k (by omega) (by omega))]
    simp [List.range'_succ]

theorem create_loop_fail (perror_errno : Int → Int) (create_rc : Nat → Int)
    (cap_threads cap_args n : Nat) :
    ∀ (lo : Nat) (acc : List Nat) (k : Nat), lo + n ≤ cap_threads → lo + n ≤ cap_args →
      lo ≤ k → k < lo + n → create_rc k ≠ 0 →
      (∀ j, lo ≤ j → j < k → create_rc j = 0) →
      create_loop perror_errno create_rc cap_threads cap_args n lo acc =
        (acc ++ List.range' lo (k - lo), LoopEnd.exited (perror_errno (create_rc k))) := by
  induction n with
  | zero => intro lo acc k _ _ h1 h2; omega
  | succ n ih =>
    intro lo acc k c1 c2 h1 h2 h3 h4
    by_cases hk : k = lo
    · subst hk
      simp only [create_loop, if_neg (by omega : ¬ cap_args ≤ k),
        if_neg (by omega : ¬ cap_threads ≤ k), ne_eq, h3, not_false_eq_true, if_true,
        Nat.sub_self, List.range', List.append_nil]
    · have h0 : create_rc lo = 0 := h4 lo (le_refl _) (by omega)
      simp only [create_loop, if_neg (by omega : ¬ cap_args ≤ lo),
        if_neg (by omega : ¬ cap_threads ≤ lo), h0, ne_eq, not_true_eq_false, if_false]
      rw [ih (lo + 1) (acc ++ [lo]) k (by omega) (by omega) (by omega) (by omega) h3
        (fun j h5 h6 => h4 j (by omega) h6)]
      have e : k - lo = (k - (lo + 1)) + 1 := by omega
      rw [e, List.range'_succ]
      simp

theorem join_loop_ok (perror_errno : Int → Int) (join_rc : Nat → Int) (n : Nat) :
    ∀ (lo : Nat), (∀ k, lo ≤ k → k < lo + n → join_rc k = 0) →
      join_loop perror_errno join_rc n lo = none := by
  induction n with
  | zero => intro lo _; rfl
  | succ n ih =>
    intro lo h
    have h0 : join_rc lo = 0 := h lo (le_refl _) (by omega)
    simp only [join_loop, h0, ne_eq, not_true_eq_false, if_false]
    exact ih (lo + 1) (fun k h1 h2 => h k (by omega) (by omega))

theorem join_loop_fail (perror_errno : Int → Int) (join_rc : Nat → Int) (n : Nat) :
    ∀ (lo k : Nat), lo ≤ k → k < lo + n → join_rc k ≠ 0 →
      (∀ j, lo ≤ j → j < k → join_rc j = 0) →
      join_loop perror_errno join_rc n lo = some (perror_errno (join_rc k)) := by
  induction n with
  | zero => intro lo k h1 h2; omega
  | succ n ih =>
    intro lo k h1 h2 h3 h4
    by_cases hk : k = lo
    · subst hk
      simp [join_loop, h3]
    · have h0 : join_rc lo = 0 := h4 lo (le_refl _) (by omega)
      simp only [join_loop, h0, ne_eq, not_true_eq_false, if_false]
      exact ih (lo + 1) k (by omega) (by omega) h3 (fun j h5 h6 => h4 j (by omega) h6)

/-- Among return values that are not all zero there is a first nonzero one. -/
theorem exists_first_failure (rc : Nat → Int) (T : Nat) (h : ¬ ∀ k, k < T → rc k = 0) :
    ∃ k, k < T ∧ rc k ≠ 0 ∧ ∀ j, j < k → rc j = 0 := by
  have hex : ∃ k, k < T ∧ rc k ≠ 0 := by
    by_contra hcon
    apply h
    intro k hk
    by_contra hne
    exact hcon ⟨k, hk, hne⟩
  classical
  refine ⟨Nat.find hex, (Nat.find_spec hex).1, (Nat.find_spec hex).2, ?_⟩
  intro j hj
  by_contra hne
  exact Nat.find_min hex hj ⟨lt_trans hj (Nat.find_spec hex).1, hne⟩

/-- The three ways in which the two loops of an engine end, for arrays that hold
`T` elements, argument structures whose blocks lie inside the matrix and buffers
that hold the matrix. -/
theorem threads_sys_cases {α : Type} {R C : Nat} (perror_errno : Int → Int)
    (create_rc join_rc : Nat → Int)
    (args : List tr_thread_arg) (cap_threads cap_args T : Nat) (sched : List Nat) (m : Mem α)
    (hRC : R * C < SIZE_MOD) (hct : T ≤ cap_threads) (hca : T ≤ cap_args)
    (hargs : ∀ (i : Nat) (a : tr_thread_arg), args[i]? = some a →
      a.A_rows = R ∧ a.A_cols = C ∧ a.r_max ≤ R ∧ a.c_max ≤ C)
    (hm : BufOk R C m) :
    ((∀ k, k < T → create_rc k = 0) → (∀ k, k < T → join_rc k = 0) →
      ∃ m', run_workers args (sched.filter (fun i => decide (i ∈ List.range T))) m = some m' ∧
        threads_sys perror_errno create_rc join_rc args cap_threads cap_args T sched m =
          ⟨List.range T, Outcome.returned m'⟩) ∧
    (∀ k, k < T → create_rc k ≠ 0 → (∀ j, j < k → create_rc j = 0) →
      threads_sys perror_errno create_rc join_rc args cap_threads cap_args T sched m =
        ⟨List.range k, Outcome.exited (perror_errno (create_rc k))⟩) ∧
    (∀ k, k < T → (∀ j, j < T → create_rc j = 0) → join_rc k ≠ 0 →
      (∀ j, j < k → join_rc j = 0) →
      threads_sys perror_errno create_rc join_rc args cap_threads cap_args T sched m =
        ⟨List.range T, Outcome.exited (perror_errno (join_rc k))⟩) := by
  have hrun : ∀ s : List Nat, ∃ m', run_workers args s m = some m' := by
    intro s
    obtain ⟨m', e, _⟩ := run_workers_spec args hRC hargs s m hm
    exact ⟨m', e⟩
  refine ⟨?_, ?_, ?_⟩
  · intro hc hj
    obtain ⟨m', e⟩ := hrun (sched.filter (fun i => decide (i ∈ List.range T)))
    refine ⟨m', e, ?_⟩
    unfold threads_sys
    rw [create_loop_ok perror_errno create_rc cap_threads cap_args T 0 [] (by omega) (by omega)
      (fun k _ h2 => hc k (by omega))]
    simp only [List.nil_append, ← List.range_eq_range', e]
    rw [join_loop_ok perror_errno join_rc T 0 (fun k _ h2 => hj k (by omega))]
  · intro k hk hne hfirst
    obtain ⟨m', e⟩ := hrun (sched.filter (fun i => decide (i ∈ List.range k)))
    unfold threads_sys
    rw [create_loop_fail perror_errno create_rc cap_threads cap_args T 0 [] k (by omega)
      (by omega) (Nat.zero_le _) (by omega) hne (fun j _ h2 => hfirst j h2)]
    simp only [List.nil_append, Nat.sub_zero, ← List.range_eq_range', e]
  · intro k hk hc hne hfirst
    obtain ⟨m', e⟩ := hrun (sched.filter (fun i => decide (i ∈ List.range T)))
    unfold threads_sys
    rw [create_loop_ok perror_errno create_rc cap_threads cap_args T 0 [] (by omega) (by omega)
      (fun j _ h2 => hc j (by omega))]
    simp only [List.nil_append, ← List.range_eq_range', e]
    rw [join_loop_fail perror_errno join_rc T 0 k (Nat.zero_le _) (by omega) hne
      (fun j _ h2 => hfirst j h2)]

/-- The ways in which the two loops end when the workers together write the whole
destination. -/
theorem threads_sys_fatal {α : Type} {R C : Nat} (perror_errno : Int → Int)
    (create_rc join_rc : Nat → Int)
    (args : List tr_thread_arg) (cap_threads cap_args T : Nat) (sched : List Nat) (m : Mem α)
    (hRC : R * C < SIZE_MOD) (hct : T ≤ cap_threads) (hca : T ≤ cap_args)
    (hargs : ∀ (i : Nat) (a : tr_thread_arg), args[i]? = some a →
      a.A_rows = R ∧ a.A_cols = C ∧ a.r_max ≤ R ∧ a.c_max ≤ C)
    (hm : BufOk R C m) (hs : sched.Perm (List.range T))
    (hfull : ∃ m₁, run_workers args sched m = some m₁ ∧ Wrote R C (fun k => k < R * C) m m₁) :
    ((∃ m', (threads_sys perror_errno create_rc join_rc args cap_threads cap_args T
        sched m).outcome = Outcome.returned m') ↔
      ((∀ k, k < T → create_rc k = 0) ∧ (∀ k, k < T → join_rc k = 0))) ∧
    (∀ m', (threads_sys perror_errno create_rc join_rc args cap_threads cap_args T
        sched m).outcome = Outcome.returned m' →
      ∀ r c, r < R → c < C → m'.B[c * R + r]? = m.A[r * C + c]?) ∧
    (∀ k, k < T → create_rc k ≠ 0 → (∀ j, j < k → create_rc j = 0) →
      threads_sys perror_errno create_rc join_rc args cap_threads cap_args T sched m =
        ⟨List.range k, Outcome.exited (perror_errno (create_rc k))⟩) ∧
    (∀ k, k < T → (∀ j, j < T → create_rc j = 0) → join_rc k ≠ 0 →
      (∀ j, j < k → join_rc j = 0) →
      threads_sys perror_errno create_rc join_rc args cap_threads cap_args T sched m =
        ⟨List.range T, Outcome.exited (perror_errno (join_rc k))⟩) := by
  obtain ⟨hret, hcreate, hjoin⟩ := threads_sys_cases perror_errno create_rc join_rc args
    cap_threads cap_args T sched m hRC hct hca hargs hm
  have hfilter : sched.filter (fun i => decide (i ∈ List.range T)) = sched := by
    rw [List.filter_eq_self]
    intro i hi
    exact decide_eq_true (hs.mem_iff.mp hi)
  have hzero : (∃ m', (threads_sys perror_errno create_rc join_rc args cap_threads cap_args T
      sched m).outcome = Outcome.returned m') →
      ((∀ k, k < T → create_rc k = 0) ∧ (∀ k, k < T → join_rc k = 0)) := by
    rintro ⟨m', h⟩
    by_cases hc : ∀ k, k < T → create_rc k = 0
    · by_cases hj : ∀ k, k < T → join_rc k = 0
      · exact ⟨hc, hj⟩
      · obtain ⟨k, hk, hne, hfirst⟩ := exists_first_failure join_rc T hj
        rw [hjoin k hk hc hne hfirst] at h
        cases h
    · obtain ⟨k, hk, hne, hfirst⟩ := exists_first_failure create_rc T hc
      rw [hcreate k hk hne hfirst] at h
      cases h
  refine ⟨⟨hzero, ?_⟩, ?_, hcreate, hjoin⟩
  · rintro ⟨hc, hj⟩
    obtain ⟨m', _, e⟩ := hret hc hj
    exact ⟨m', by rw [e]⟩
  · intro m' h r c hr hc'
    obtain ⟨hc, hj⟩ := hzero ⟨m', h⟩
    obtain ⟨m₂, e₂, e⟩ := hret hc hj
    obtain ⟨m₁, e₁, w⟩ := hfull
    rw [hfilter, e₁] at e₂
    rw [e] at h
    cases h
    cases e₂
    exact w.get_cell hr hc'

/-- C11, amended: with the return values of `pthread_create` and `pthread_join` as
parameters, on buffers of `R * C` elements and `T ≥ 1` threads whose array size
`T * sizeof(struct tr_thread_arg)` is representable, either engine returns to its
caller if and only if every `pthread_create` and every `pthread_join` returns 0,
and then the destination is the full transpose; when the first failing call is the
`pthread_create` of worker `k`, the call ends by `exit`, with exactly the workers
`0, ..., k-1` launched; when every creation succeeds and the first failing
`pthread_join` is that of worker `k`, the call ends by `exit`.  The exit status is
the value of `errno` after `perror`. -/
theorem fatal_failure {α : Type} (A B : List α) (R C T : Nat) (sched : List Nat)
    (perror_errno : Int → Int) (create_rc join_rc : Nat → Int)
    (E : (Int → Int) → (Nat → Int) → (Nat → Int) → List Nat → Mem α → Nat → Nat → Nat → Run α)
    (hE : E = transpose_threads_row_sys ∨ E = transpose_threads_col_sys)
    (hR : R < SIZE_MOD) (hC : C < SIZE_MOD) (hRC : R * C < SIZE_MOD)
    (hT : 1 ≤ T) (hcap : T * SIZEOF_TR_THREAD_ARG < SIZE_MOD)
    (hA : A.length = R * C) (hB : B.length = R * C) (hs : sched.Perm (List.range T)) :
    ((∃ m', (E perror_errno create_rc join_rc sched ⟨A, B⟩ R C T).outcome
        = Outcome.returned m') ↔
      ((∀ k, k < T → create_rc k = 0) ∧ (∀ k, k < T → join_rc k = 0))) ∧
    (∀ m', (E perror_errno create_rc join_rc sched ⟨A, B⟩ R C T).outcome
        = Outcome.returned m' →
      ∀ r c, r < R → c < C → m'.B[c * R + r]? = A[r * C + c]?) ∧
    (∀ k, k < T → create_rc k ≠ 0 → (∀ j, j < k → create_rc j = 0) →
      E perror_errno create_rc join_rc sched ⟨A, B⟩ R C T =
        ⟨List.range k, Outcome.exited (perror_errno (create_rc k))⟩) ∧
    (∀ k, k < T → (∀ j, j < T → create_rc j = 0) → join_rc k ≠ 0 →
      (∀ j, j < k → join_rc j = 0) →
      E perror_errno create_rc join_rc sched ⟨A, B⟩ R C T =
        ⟨List.range T, Outcome.exited (perror_errno (join_rc k))⟩) := by
  have hT2 : T < SIZE_MOD := lt_of_cap hcap
  have hm : BufOk R C (⟨A, B⟩ : Mem α) := ⟨hA.ge, hB.ge⟩
  have hT0 : ¬ T = 0 := by omega
  obtain ⟨hc1, hc2⟩ := alloc_capacity_eq hcap
  rcases hE with h | h
  · have e : E perror_errno create_rc join_rc sched ⟨A, B⟩ R C T =
        threads_sys perror_errno create_rc join_rc (row_args R C T) T T T sched ⟨A, B⟩ := by
      rw [h]; simp only [transpose_threads_row_sys, if_neg hT0, hc1, hc2]
    rw [e]
    obtain ⟨m₁, e₁, w₁⟩ :=
      transpose_threads_row_spec sched ⟨A, B⟩ hR hRC hT hT2 hcap hm (sched_covers hs)
    simp only [transpose_threads_row, if_neg hT0, if_neg (not_alloc_short hcap)] at e₁
    exact threads_sys_fatal perror_errno create_rc join_rc (row_args R C T) T T T sched ⟨A, B⟩
      hRC (le_refl T) (le_refl T) (engine_args_ok R C T _ hR hC hT hT2 (Or.inl rfl)) hm hs
      ⟨m₁, e₁, w₁⟩
  · have e : E perror_errno create_rc join_rc sched ⟨A, B⟩ R C T =
        threads_sys perror_errno create_rc join_rc (col_args R C T) T T T sched ⟨A, B⟩ := by
      rw [h]; simp only [transpose_threads_col_sys, if_neg hT0, hc1, hc2]
    rw [e]
    obtain ⟨m₁, e₁, w₁⟩ :=
      transpose_threads_col_spec sched ⟨A, B⟩ hC hRC hT hT2 hcap hm (sched_covers hs)
    simp only [transpose_threads_col, if_neg hT0, if_neg (not_alloc_short hcap)] at e₁
    exact threads_sys_fatal perror_errno create_rc join_rc (col_args R C T) T T T sched ⟨A, B⟩
      hRC (le_refl T) (le_refl T) (engine_args_ok R C T _ hR hC hT hT2 (Or.inr rfl)) hm hs
      ⟨m₁, e₁, w₁⟩

/-- A 2 x 3 matrix and three threads, where the creation of the third thread
returns 11 (`EAGAIN`) and `perror` leaves 22 in `errno`. -/
theorem fatal_failure_witness :
    ((∃ m', (transpose_threads_row_sys (fun _ => 22) (fun k => if k = 2 then 11 else 0)
        (fun _ => 0) [0, 1, 2] ⟨[10, 11, 12, 13, 14, 15], [0, 0, 0, 0, 0, 0]⟩ 2 3 3).outcome
          = Outcome.returned m') ↔
      ((∀ k, k < 3 → (fun k => if k = 2 then (11 : Int) else 0) k = 0) ∧
        (∀ k, k < 3 → (fun _ => (0 : Int)) k = 0))) ∧
    (∀ m', (transpose_threads_row_sys (fun _ => 22) (fun k => if k = 2 then 11 else 0)
        (fun _ => 0) [0, 1, 2] ⟨[10, 11, 12, 13, 14, 15], [0, 0, 0, 0, 0, 0]⟩ 2 3 3).outcome
          = Outcome.returned m' →
      ∀ r c, r < 2 → c < 3 → m'.B[c * 2 + r]? = [10, 11, 12, 13, 14, 15][r * 3 + c]?) ∧
    (∀ k, k < 3 → (fun k => if k = 2 then (11 : Int) else 0) k ≠ 0 →
      (∀ j, j < k → (fun k => if k = 2 then (11 : Int) else 0) j = 0) →
      transpose_threads_row_sys (fun _ => 22) (fun k => if k = 2 then 11 else 0) (fun _ => 0)
        [0, 1, 2] ⟨[10, 11, 12, 13, 14, 15], [0, 0, 0, 0, 0, 0]⟩ 2 3 3 =
        ⟨List.range k, Outcome.exited
          ((fun _ => (22 : Int)) ((fun k => if k = 2 then (11 : Int) else 0) k))⟩) ∧
    (∀ k, k < 3 → (∀ j, j < 3 → (fun k => if k = 2 then (11 : Int) else 0) j = 0) →
      (fun _ => (0 : Int)) k ≠ 0 →
      (∀ j, j < k → (fun _ => (0 : Int)) j = 0) →
      transpose_threads_row_sys (fun _ => 22) (fun k => if k = 2 then 11 else 0) (fun _ => 0)
        [0, 1, 2] ⟨[10, 11, 12, 13, 14, 15], [0, 0, 0, 0, 0, 0]⟩ 2 3 3 =
        ⟨List.range 3, Outcome.exited ((fun _ => (22 : Int)) ((fun _ => (0 : Int)) k))⟩) :=
  fatal_failure [10, 11, 12, 13, 14, 15] [0, 0, 0, 0, 0, 0] 2 3 3 [0, 1, 2]
    (fun _ => 22) (fun k => if k = 2 then 11 else 0) (fun _ => 0) transpose_threads_row_sys
    (Or.inl rfl)
    (by decide) (by decide) (by decide) (by decide) (by decide) (by decide) (by decide)
    (by decide)

/-- C11, as stated, fails in two places.  When the creation of the second of two
threads returns 11 and `perror` leaves 22 in `errno`, the call ends by `exit(22)`,
not `exit(11)`.  And with `2^61` threads, for which `num_thr * sizeof(..)` wraps to
0, the call does not return although every `pthread_create` and `pthread_join`
returns 0: the first iteration stores `args[0]` outside the array. -/
theorem fatal_failure_counterexample :
    (transpose_threads_row_sys (fun _ => 22) (fun k => if k = 1 then 11 else 0) (fun _ => 0)
      [0, 1] ⟨[10, 11, 12, 13, 14, 15], [0, 0, 0, 0, 0, 0]⟩ 2 3 2).outcome
        = Outcome.exited 22 ∧
    (transpose_threads_row_sys (fun _ => 22) (fun k => if k = 1 then 11 else 0) (fun _ => 0)
      [0, 1] ⟨[10, 11, 12, 13, 14, 15], [0, 0, 0, 0, 0, 0]⟩ 2 3 2).outcome
        ≠ Outcome.exited 11 ∧
    transpose_threads_row_sys (fun e => e) (fun _ => 0) (fun _ => 0)
      (List.range 2305843009213693952) ⟨[5], [0]⟩ 1 1 2305843009213693952
        = ⟨[], Outcome.undefined⟩ := by
  decide

/-! ## A thread count of zero -/

/-- C12, as stated, fails: with `num_thr = 0` the row engine does not end by a
call of `exit`; no check precedes the division `A_rows % num_thr`. -/
theorem zero_threads_counterexample :
    ¬ ∃ e, (transpose_threads_row_sys (fun e => e) (fun _ => 0) (fun _ => 0) []
      ⟨[1, 2], [0, 0]⟩ 1 2 0).outcome = Outcome.exited e := by
  rintro ⟨e, h⟩
  simp [transpose_threads_row_sys] at h

/-- C12, amended: for `num_thr = 0` neither engine signals a failure; the division
by the thread count, which precedes the creation loop, has undefined behaviour, and
up to it no worker has been launched and no element of `B` written. -/
theorem zero_threads_undefined {α : Type} (perror_errno : Int → Int)
    (create_rc join_rc : Nat → Int) (sched : List Nat)
    (m : Mem α) (A_rows A_cols : Nat) :
    transpose_threads_row_sys perror_errno create_rc join_rc sched m A_rows A_cols 0
      = ⟨[], Outcome.undefined⟩ ∧
    transpose_threads_col_sys perror_errno create_rc join_rc sched m A_rows A_cols 0
      = ⟨[], Outcome.undefined⟩ ∧
    transpose_threads_row sched m A_rows A_cols 0 = none ∧
    transpose_threads_col sched m A_rows A_cols 0 = none :=
  ⟨rfl, rfl, rfl, rfl⟩

/-! ## The blocked threaded variants are stubs -/

/-- C16: for every input, each of `transpose_flt_threads_row_blocked`,
`transpose_dbl_threads_row_blocked`, `transpose_flt_threads_col_blocked` and
`transpose_dbl_threads_col_blocked` ends by `exit(-1)` with the memory, hence `B`,
as it was at the call, and does not return to its caller. -/
theorem blocked_variants_exit {α : Type} (m : Mem α)
    (A_rows A_cols num_thr blk_rows blk_cols : Nat) :
    transpose_flt_threads_row_blocked m A_rows A_cols num_thr blk_rows blk_cols
      = (m, Outcome.exited (-1)) ∧
    transpose_dbl_threads_row_blocked m A_rows A_cols num_thr blk_rows blk_cols
      = (m, Outcome.exited (-1)) ∧
    transpose_flt_threads_col_blocked m A_rows A_cols num_thr blk_rows blk_cols
      = (m, Outcome.exited (-1)) ∧
    transpose_dbl_threads_col_blocked m A_rows A_cols num_thr blk_rows blk_cols
      = (m, Outcome.exited (-1)) ∧
    (∀ m', (transpose_flt_threads_row_blocked m A_rows A_cols num_thr blk_rows blk_cols).2
      ≠ Outcome.returned m') ∧
    (∀ m', (transpose_dbl_threads_row_blocked m A_rows A_cols num_thr blk_rows blk_cols).2
      ≠ Outcome.returned m') ∧
    (∀ m', (transpose_flt_threads_col_blocked m A_rows A_cols num_thr blk_rows blk_cols).2
      ≠ Outcome.returned m') ∧
    (∀ m', (transpose_dbl_threads_col_blocked m A_rows A_cols num_thr blk_rows blk_cols).2
      ≠ Outcome.returned m') := by
  refine ⟨rfl, rfl, rfl, rfl, ?_, ?_, ?_, ?_⟩
  · intro m' h
    simp [transpose_flt_threads_row_blocked] at h
  · intro m' h
    simp [transpose_dbl_threads_row_blocked] at h
  · intro m' h
    simp [transpose_flt_threads_col_blocked] at h
  · intro m' h
    simp [transpose_dbl_threads_col_blocked] at h

/-! ## Evaluation of the engines with error codes -/

/-- The creation of the second of two threads fails with 11 and `perror` leaves
`errno` as it is: `exit(11)` with worker 0 launched. -/
theorem transpose_threads_row_sys_create_eval :
    transpose_threads_row_sys (fun e => e) (fun k => if k = 1 then 11 else 0) (fun _ => 0)
      [1, 0] ⟨[10, 11, 12, 13, 14, 15], [0, 0, 0, 0, 0, 0]⟩ 2 3 2 = ⟨[0], Outcome.exited 11⟩ := by
  decide

/-- Joining the first of two threads fails with 3: `exit(3)`. -/
theorem transpose_threads_col_sys_join_eval :
    transpose_threads_col_sys (fun e => e) (fun _ => 0) (fun k => if k = 0 then 3 else 0)
      [1, 0] ⟨[10, 11, 12, 13, 14, 15], [0, 0, 0, 0, 0, 0]⟩ 2 3 2
        = ⟨[0, 1], Outcome.exited 3⟩ := by
  decide

/-- Every call succeeds: the engine returns the transpose. -/
theorem transpose_threads_row_sys_ok_eval :
    transpose_threads_row_sys (fun e => e) (fun _ => 0) (fun _ => 0) [1, 0]
      ⟨[10, 11, 12, 13, 14, 15], [0, 0, 0, 0, 0, 0]⟩ 2 3 2 =
      ⟨[0, 1], Outcome.returned ⟨[10, 11, 12, 13, 14, 15], [10, 13, 11, 14, 12, 15]⟩⟩ := by
  decide

/-- The accesses of the second of two row workers on a 2 x 3 matrix. -/
theorem thread_trace_eval :
    thread_trace (row_arg 2 3 2 1) = [(3, 1), (4, 3), (5, 5)] := by
  decide

/-- The sizes of the two arrays for `2^61` threads wrap to 0 bytes, and for
`2^61 + 1` threads to one element each. -/
theorem alloc_capacity_eval :
    alloc_capacity 2305843009213693952 SIZEOF_PTHREAD_T = 0 ∧
    alloc_capacity 2305843009213693952 SIZEOF_TR_THREAD_ARG = 0 ∧
    alloc_capacity 2305843009213693953 SIZEOF_PTHREAD_T = 1 ∧
    alloc_capacity 2305843009213693953 SIZEOF_TR_THREAD_ARG = 1 := by
  decide

end TransposeThreads
